import Mathlib

/-!
Verification development for the list-indent transform of
`packages/remirror__extension-list/src/list-command-indent.ts`.

The document model follows the host editor's (ProseMirror's) data model as
described in the spec's section 3: a document is a sequence of blocks; a
block is either a paragraph (text content) or a list node of one of three
kinds (bullet, ordered, task); a list's children are list-item nodes; a
list item's content is a nonempty sequence of blocks.  Positions are
integer offsets into the flattened token stream of the document (one token
per open boundary, close boundary, or character).

The host's structural-replace primitive (`Node.replace`, used by
`ReplaceAroundStep.apply`, `Transform.delete` and
`Transform.replaceRangeWith`) is modelled by its contract: replacing the
token range `[from, to)` with the tokens of a slice succeeds iff the
resulting token stream parses back into a schema-valid document, and then
yields exactly that document (the host checks content-model validity of
every rebuilt node and fails with a `ReplaceError` otherwise, which
surfaces as a thrown `TransformError` from `tr.step`).
-/

namespace ListIndent

/-- The three list kinds of the repository's schema (bullet list, ordered
list, task list); two list nodes are compatible for merge iff their kinds
are equal. -/
inductive ListKind where
  | bullet
  | ordered
  | task
deriving DecidableEq, Repr

/-- The list-item node kinds: plain `listItem` (used by bullet and ordered
lists) and `taskListItem` with its `checked` attribute (used by task
lists). -/
inductive ItemKind where
  | plain
  | taskItem (checked : Bool)
deriving DecidableEq, Repr

/-- A document node.  Mirroring the host's untyped `Node`, one inductive
covers paragraphs (text content), list nodes (children: items) and
list-item nodes (children: blocks); the schema's typing rules (lists hold
only items, items hold only blocks) live in the validity predicate
below. -/
inductive PMNode where
  | para (text : List Char)
  | list (k : ListKind) (items : List PMNode)
  | item (ik : ItemKind) (content : List PMNode)
deriving Repr

mutual
/-- Boolean structural equality of nodes (the nested inductive does not
support automatic derivation). -/
def beqN : PMNode → PMNode → Bool
  | .para t, .para t' => decide (t = t')
  | .list k ns, .list k' ns' => decide (k = k') && beqL ns ns'
  | .item ik ns, .item ik' ns' => decide (ik = ik') && beqL ns ns'
  | _, _ => false

/-- Boolean structural equality of node sequences. -/
def beqL : List PMNode → List PMNode → Bool
  | [], [] => true
  | n :: ns, m :: ms => beqN n m && beqL ns ms
  | _, _ => false
end

mutual
theorem beqN_iff : ∀ a b : PMNode, beqN a b = true ↔ a = b
  | .para t, .para t' => by simp [beqN]
  | .para _, .list _ _ => by simp [beqN]
  | .para _, .item _ _ => by simp [beqN]
  | .list _ _, .para _ => by simp [beqN]
  | .list k ns, .list k' ns' => by
      simp [beqN, beqL_iff ns ns']
  | .list _ _, .item _ _ => by simp [beqN]
  | .item _ _, .para _ => by simp [beqN]
  | .item _ _, .list _ _ => by simp [beqN]
  | .item ik ns, .item ik' ns' => by
      simp [beqN, beqL_iff ns ns']

theorem beqL_iff : ∀ a b : List PMNode, beqL a b = true ↔ a = b
  | [], [] => by simp [beqL]
  | [], _ :: _ => by simp [beqL]
  | _ :: _, [] => by simp [beqL]
  | n :: ns, m :: ms => by
      simp [beqL, beqN_iff n m, beqL_iff ns ms]
end

instance : DecidableEq PMNode := fun a b => decidable_of_iff _ (beqN_iff a b)

/-- A document is its sequence of top-level blocks (the `doc` node). -/
abbrev Doc := List PMNode

/-- The `isListNode` check of `list-utils.ts`: is the node one of the
three list node types? -/
def isListNode : PMNode → Bool
  | .list _ _ => true
  | _ => false

/-- The `isListItemNode` check of `list-utils.ts`: is the node a
`listItem` or `taskListItem`? -/
def isListItemNode : PMNode → Bool
  | .item _ _ => true
  | _ => false

/-- Does an item kind belong to a list kind per the schema's content
models (`bulletList`/`orderedList` contain `listItem+`, `taskList`
contains `taskListItem+`)? -/
def kindOk : ListKind → ItemKind → Bool
  | .task, .taskItem _ => true
  | .bullet, .plain => true
  | .ordered, .plain => true
  | _, _ => false

mutual
/-- Node size (`nodeSize`): content size plus the two boundary tokens
(every node here is a non-leaf or text-holding node). -/
def size : PMNode → Nat
  | .para t => t.length + 2
  | .list _ ns => sizeL ns + 2
  | .item _ ns => sizeL ns + 2

/-- Total node size of a sequence of children (a fragment's `size`). -/
def sizeL : List PMNode → Nat
  | [] => 0
  | n :: ns => size n + sizeL ns
end

/-- Content size of a node (tokens strictly inside). -/
def contentSize (n : PMNode) : Nat := size n - 2

/-- The node type of a list item without its attributes (`listItem`
vs. `taskListItem`); the host's join checks compare node types only, the
attributes of a joined node come from its opening side. -/
inductive ItemSort where
  | plainSort
  | taskSort
deriving DecidableEq, Repr

/-- The node type underlying an item kind. -/
def sortOf : ItemKind → ItemSort
  | .plain => .plainSort
  | .taskItem _ => .taskSort

/-- Tokens of the flattened document: open boundaries carry the node with
its attributes, close boundaries carry the node type only (the host's
`replace` joins two nodes when their types are compatible, keeping the
opening side's attributes), characters are their own tokens. -/
inductive Tok where
  | openP
  | closeP
  | chr (c : Char)
  | openL (k : ListKind)
  | closeL (k : ListKind)
  | openI (ik : ItemKind)
  | closeI (s : ItemSort)
deriving DecidableEq, Repr

mutual
/-- Token stream of a node. -/
def toks : PMNode → List Tok
  | .para t => Tok.openP :: (t.map Tok.chr ++ [Tok.closeP])
  | .list k ns => Tok.openL k :: (toksL ns ++ [Tok.closeL k])
  | .item ik ns => Tok.openI ik :: (toksL ns ++ [Tok.closeI (sortOf ik)])

/-- Token stream of a sequence of sibling nodes. -/
def toksL : List PMNode → List Tok
  | [] => []
  | n :: ns => toks n ++ toksL ns
end

mutual
/-- Schema validity of a block position: paragraphs are always valid
(content `text*`), lists need at least one item child (`listItem+` /
`taskListItem+`) of the matching item kind, and an item node is not a
block. -/
def validB : PMNode → Bool
  | .para _ => true
  | .list k ns => !ns.isEmpty && validItems k ns
  | .item _ _ => false

/-- Validity of the children of a list node of kind `k`: each child is an
item of the matching kind with valid, nonempty block content. -/
def validItems (k : ListKind) : List PMNode → Bool
  | [] => true
  | .item ik c :: ns => kindOk k ik && !c.isEmpty && validBs c && validItems k ns
  | _ :: _ => false

/-- Validity of a block sequence. -/
def validBs : List PMNode → Bool
  | [] => true
  | b :: bs => validB b && validBs bs
end

/-- Validity of a whole document: at least one block (`doc` has content
model `block+`), all blocks valid. -/
def validDoc (d : Doc) : Bool := !d.isEmpty && validBs d

/-! Reading a token stream back into a document.  This is the semantic
core of the modelled replace primitive: a structural edit expressed as a
token splice succeeds iff the spliced stream is the stream of a valid
document, in which case it produces that document.  The reader is a
stack machine; it enforces the same content-model checks the host's
`replace` performs when closing rebuilt nodes. -/

/-- A node under construction: its opened type and the children collected
so far, in reverse order. -/
inductive Opened where
  | op (txt : List Char)
  | ol (k : ListKind) (its : List PMNode)
  | oi (ik : ItemKind) (bs : List PMNode)
deriving Repr

/-- Reader state: the stack of open nodes (innermost first) and the
completed top-level blocks (in reverse order). -/
structure PSt where
  stk : List Opened
  acc : List PMNode
deriving Repr

/-- Attach a completed block at the current point: into the enclosing open
item, or to the top level.  (Only meaningful when the stack is empty or
has an open item on top; other callers guard this.) -/
def addB (b : PMNode) (st : PSt) : PSt :=
  match st.stk with
  | .oi ik bs :: rest => ⟨.oi ik (b :: bs) :: rest, st.acc⟩
  | _ => ⟨st.stk, b :: st.acc⟩

/-- May a block be attached at the current point (top level or inside an
open item)?  Blocks may not sit directly inside paragraphs or lists. -/
def blockPos (st : PSt) : Bool :=
  match st.stk with
  | [] => true
  | .oi _ _ :: _ => true
  | _ => false

/-- One token of reading.  A close token performs the content-model check
of the node it completes (nonempty children for lists and items, item
kinds matching the list kind, matching boundary types). -/
def pstep (st : PSt) (t : Tok) : Option PSt :=
  match t, st.stk with
  | .openP, _ => if blockPos st then some ⟨.op [] :: st.stk, st.acc⟩ else none
  | .chr c, .op txt :: rest => some ⟨.op (c :: txt) :: rest, st.acc⟩
  | .closeP, .op txt :: rest =>
      some (addB (.para txt.reverse) ⟨rest, st.acc⟩)
  | .openL k, _ => if blockPos st then some ⟨.ol k [] :: st.stk, st.acc⟩ else none
  | .closeL k, .ol k' its :: rest =>
      if k = k' && !its.isEmpty then some (addB (.list k its.reverse) ⟨rest, st.acc⟩)
      else none
  | .openI ik, .ol k its :: rest =>
      if kindOk k ik then some ⟨.oi ik [] :: .ol k its :: rest, st.acc⟩ else none
  | .closeI s, .oi ik bs :: .ol k its :: rest =>
      if s = sortOf ik && !bs.isEmpty then
        some ⟨.ol k (.item ik bs.reverse :: its) :: rest, st.acc⟩
      else none
  | _, _ => none

/-- Run the reader over a token list. -/
def runT (ts : List Tok) (st : Option PSt) : Option PSt :=
  ts.foldl (fun o t => o.bind (fun s => pstep s t)) st

/-- Read a whole token stream as a document: the stack must come back
empty and the document must be nonempty (`doc` content model
`block+`). -/
def parse (ts : List Tok) : Option Doc :=
  match runT ts (some ⟨[], []⟩) with
  | some ⟨[], acc⟩ => if acc.isEmpty then none else some acc.reverse
  | _ => none

/-- The modelled replace contract of the host: splice `ins` over the token
range `[a, b)` of `d` and read the result back; `none` models a
`ReplaceError`/`TransformError` (the host throws, the transform
crashes). -/
def replaceToks (d : Doc) (a b : Nat) (ins : List Tok) : Option Doc :=
  parse ((toksL d).take a ++ ins ++ (toksL d).drop b)

/-- Folding `addB` over a block sequence (the state after reading the
sequence at a block position). -/
def addBsF (bs : List PMNode) (st : PSt) : PSt :=
  bs.foldl (fun s b => addB b s) st

/-! Contexts.  A `BCtx` is a one-hole context for a block position in a
document: the hole either sits among the top-level blocks or at a block
position inside an item of a list that itself sits at a context.  The
range resolver returns the context of the selected list, which gives both
the numeric positions the source manipulates and the structural
decomposition the theorems are stated with. -/

/-- One-hole block context.  `deeper c k ipre ipost ik bpre bpost` places
the hole inside the item `item ik (bpre ++ hole :: bpost)`, which is a
child of the list `list k (ipre ++ that item :: ipost)`, which sits at
context `c`. -/
inductive BCtx where
  | top (pre post : List PMNode)
  | deeper (c : BCtx) (k : ListKind) (ipre ipost : List PMNode)
      (ik : ItemKind) (bpre bpost : List PMNode)
deriving Repr

/-- Fill the hole of a context with a block. -/
def plugB : BCtx → PMNode → Doc
  | .top pre post, b => pre ++ b :: post
  | .deeper c k ipre ipost ik bpre bpost, b =>
      plugB c (.list k (ipre ++ .item ik (bpre ++ b :: bpost) :: ipost))

/-- Remove the hole's block entirely (used when a delete consumes the
whole selected list). -/
def plug0 : BCtx → Doc
  | .top pre post => pre ++ post
  | .deeper c k ipre ipost ik bpre bpost =>
      plugB c (.list k (ipre ++ .item ik (bpre ++ bpost) :: ipost))

/-- Tokens strictly before the hole. -/
def ctxPre : BCtx → List Tok
  | .top pre _ => toksL pre
  | .deeper c k ipre _ ik bpre _ =>
      ctxPre c ++ Tok.openL k :: (toksL ipre ++ Tok.openI ik :: toksL bpre)

/-- Tokens strictly after the hole. -/
def ctxSuf : BCtx → List Tok
  | .top _ post => toksL post
  | .deeper c k _ ipost ik _ bpost =>
      toksL bpost ++ Tok.closeI (sortOf ik) :: (toksL ipost ++ Tok.closeL k :: ctxSuf c)

/-- Sibling blocks preceding the hole inside the hole's parent. -/
def sibsBefore : BCtx → List PMNode
  | .top pre _ => pre
  | .deeper _ _ _ _ _ bpre _ => bpre

/-- Sibling blocks following the hole inside the hole's parent. -/
def sibsAfter : BCtx → List PMNode
  | .top _ post => post
  | .deeper _ _ _ _ _ _ bpost => bpost

/-- Content-start position of the hole's parent node (`$from.start` one
level above the selected list: `0` for the document itself, otherwise the
content start of the enclosing item). -/
def parentStart : BCtx → Nat
  | .top _ _ => 0
  | .deeper c k ipre _ _ _ _ => (ctxPre c).length + 1 + sizeL ipre + 1

/-- Replace the last sibling block before the hole (used to state the
case-B rebuild, which substitutes the previous list). -/
def withNewPrevSib : BCtx → PMNode → BCtx
  | .top pre post, nb => .top (pre.dropLast ++ [nb]) post
  | .deeper c k ipre ipost ik bpre bpost, nb =>
      .deeper c k ipre ipost ik (bpre.dropLast ++ [nb]) bpost

/-- Tokens strictly before the hole's parent's content (so that
`ctxPre c = ctxParentPre c ++ toksL (sibsBefore c)`). -/
def ctxParentPre : BCtx → List Tok
  | .top _ _ => []
  | .deeper c k ipre _ ik _ _ => ctxPre c ++ Tok.openL k :: (toksL ipre ++ [Tok.openI ik])

/-! Range resolution.  `calculateItemRange` of `list-commands.ts` is not
among the given sources; per its call in `indentList` and spec section 4.1
it computes `$from.blockRange($to, isListNode)`: the deepest list node
around `$from` whose content also spans `$to`, together with the covered
span of its item children.  The resolver below is modelled from that
contract; it returns the structural context of the selected list and the
covered children, from which the numeric `NodeRange` fields (`start`,
`end`, `depth`, `startIndex`, `endIndex`) are derived. -/

/-- The resolved item range: the selected list (kind `k`, children
`pre ++ ranged ++ post`) at context `ctx`, with `ranged` the covered
span. -/
structure ItemRange where
  ctx : BCtx
  k : ListKind
  pre : List PMNode
  ranged : List PMNode
  post : List PMNode
deriving Repr

/-- Content-start position of the selected list. -/
def ItemRange.listStart (r : ItemRange) : Nat := (ctxPre r.ctx).length + 1

/-- `NodeRange.start`: position just before the first covered item. -/
def ItemRange.start (r : ItemRange) : Nat := r.listStart + sizeL r.pre

/-- `NodeRange.end`: position just after the last covered item. -/
def ItemRange.rangeEnd (r : ItemRange) : Nat := r.start + sizeL r.ranged

/-- `NodeRange.startIndex`. -/
def ItemRange.startIndex (r : ItemRange) : Nat := r.pre.length

/-- `NodeRange.endIndex`. -/
def ItemRange.endIndex (r : ItemRange) : Nat := r.pre.length + r.ranged.length

/-- The items of the selected list. -/
def ItemRange.items (r : ItemRange) : List PMNode := r.pre ++ r.ranged ++ r.post

/-- Index of the child whose span strictly contains `f`, counting from a
child sequence starting at absolute position `base`; `$from.index` at the
list depth when `f` sits strictly inside an item, the number of children
fully before `f` otherwise. -/
def idxFrom (ns : List PMNode) (base f : Nat) : Nat :=
  match ns with
  | [] => 0
  | n :: rest => if base + size n ≤ f then idxFrom rest (base + size n) f + 1 else 0

/-- `$to.indexAfter` at the list depth: the number of children whose start
position lies strictly before `t`. -/
def idxAfterTo (ns : List PMNode) (base t : Nat) : Nat :=
  match ns with
  | [] => 0
  | n :: rest => if base < t then idxAfterTo rest (base + size n) t + 1 else 0

/-- Build the `NodeRange` data once the deepest candidate list is found:
`lcs` is the list's content start, `f`/`t` the selection endpoints.
Returns `none` when no child span is covered (not reachable for a text
selection inside the list, mirroring `blockRange` only producing ranges
with a nonempty child span for selections inside list items). -/
def buildRange (c : BCtx) (k : ListKind) (ns : List PMNode) (lcs f t : Nat) :
    Option ItemRange :=
  let s := idxFrom ns lcs f
  let e := idxAfterTo ns lcs t
  if s < e then some ⟨c, k, ns.take s, (ns.drop s).take (e - s), ns.drop e⟩ else none

/-- A partially-built context frame for the level being scanned. -/
inductive CtxF where
  | ftop
  | fdeeper (c : BCtx) (k : ListKind) (ipre ipost : List PMNode) (ik : ItemKind)
deriving Repr

/-- Complete a frame into a context given the siblings around the hole. -/
def mkCtx : CtxF → List PMNode → List PMNode → BCtx
  | .ftop, pre, post => .top pre post
  | .fdeeper c k ipre ipost ik, pre, post => .deeper c k ipre ipost ik pre post

mutual
/-- Scan a block sequence (starting at absolute position `pos`) for the
deepest list candidate strictly containing `f` whose content also spans
`t`; `fr` rebuilds the context of the current level. -/
def goBs (fr : CtxF) (pre : List PMNode) (bs : List PMNode) (pos f t : Nat) :
    Option ItemRange :=
  match bs with
  | [] => none
  | b :: rest =>
      if f ≤ pos then none
      else if pos + size b ≤ f then goBs fr (pre ++ [b]) rest (pos + size b) f t
      else
        match b with
        | .para _ => none
        | .item _ _ => none
        | .list k its =>
            let c := mkCtx fr pre rest
            match goItems c k [] its (pos + 1) f t with
            | some r => some r
            | none =>
                if t ≤ pos + 1 + sizeL its then buildRange c k its (pos + 1) f t
                else none

/-- Scan the items of a candidate list for a deeper candidate inside the
item strictly containing `f`. -/
def goItems (c : BCtx) (k : ListKind) (ipre : List PMNode) (ns : List PMNode)
    (pos f t : Nat) : Option ItemRange :=
  match ns with
  | [] => none
  | n :: rest =>
      if f ≤ pos then none
      else if pos + size n ≤ f then goItems c k (ipre ++ [n]) rest (pos + size n) f t
      else
        match n with
        | .item ik cnt => goBs (.fdeeper c k ipre rest ik) [] cnt (pos + 1) f t
        | _ => none
end

/-- The range resolver (`calculateItemRange(selection)` of
`list-commands.ts`, modelled from the spec): the deepest list enclosing
`$from` whose content also spans `$to`, with the covered item span. -/
def calculateItemRange (d : Doc) (f t : Nat) : Option ItemRange :=
  goBs .ftop [] d 0 f t

/-! The transform.  `findPreviousItem`, `sliceSelectedItems` and
`indentList` below translate `list-command-indent.ts` line by line; the
resolved-position accessors the source reads (`$from.index(d)`,
`$from.node(d)`, `$from.start(d)`, child access, `nodeSize`) are computed
from the structural range, which carries the same information. -/

/-- Result record of `findPreviousItem`.  `viaSameList` models the object
identity `previousList === selectedList` read later by `indentList`'s
`setSelection`: it is true exactly on the first branch, where the source
assigns `previousList = selectedList` (on the second branch the previous
list is a distinct sibling node object). -/
structure FPIResult where
  previousItem : PMNode
  previousList : PMNode
  previousItemStart : Nat
  previousListStart : Nat
  viaSameList : Bool
deriving Repr

/-- Translation of `findPreviousItem(selectedList, $from, range)`: the
previous item is the preceding sibling item when `range.startIndex >= 1`
(then `previousItem = selectedList.child(range.startIndex - 1)` and its
content start is `previousListStart + 1` plus the sizes of the children
before it, as the source's loop computes); otherwise the last item of the
previous sibling list at the parent's level, provided that sibling exists
(`listIndex >= 1`), is a list node, and its last child is a list item;
in every other case `false` (`none`). -/
def findPreviousItem (selectedList : PMNode) (r : ItemRange) : Option FPIResult :=
  if r.startIndex ≥ 1 then
    match r.pre.getLast? with
    | some pItem =>
        let previousListStart := r.listStart
        let previousItemStart := previousListStart + 1 + sizeL r.pre.dropLast
        some ⟨pItem, selectedList, previousItemStart, previousListStart, true⟩
    | none => none
  else
    let listIndex := (sibsBefore r.ctx).length
    if listIndex ≥ 1 then
      match (sibsBefore r.ctx).getLast? with
      | some previousList =>
          if isListNode previousList then
            let listParentStart := parentStart r.ctx
            let previousListStart :=
              listParentStart + 1 + sizeL (sibsBefore r.ctx).dropLast
            match previousList with
            | .list _ pItems =>
                match pItems.getLast? with
                | some previousItem =>
                    let previousItemStart :=
                      previousListStart + size previousList - size previousItem - 1
                    if isListItemNode previousItem then
                      some ⟨previousItem, previousList, previousItemStart,
                        previousListStart, false⟩
                    else none
                | none => none
            | _ => none
          else none
      | none => none
    else none

/-- Index of the block of `bs` strictly containing relative offset `off`
(`none` when `off` falls on a block boundary or outside); detects
`$to.depth >= range.depth + 2` and yields `$to.index(range.depth + 1)`. -/
def findDeepBlock (bs : List PMNode) (off : Nat) : Option Nat :=
  match bs with
  | [] => none
  | b :: rest =>
      if off < 1 then none
      else if off < size b then some 0
      else (findDeepBlock rest (off - size b)).map (· + 1)

/-- Translation of `sliceSelectedItems(doc, $to, range)`.  When `$to`
reaches below the item level (`$to.depth >= range.depth + 2`), the source
cuts at `mid = $to.end(range.depth + 2)`, the content end of the block of
the last covered item containing `$to`: the selected slice keeps the
covered items with the last one truncated after that block, and the
unselected slice holds that item's remaining blocks (possibly empty).
Otherwise (`mid + 1 >= end`) the whole covered range is the selected
slice.  The slices' contents are returned (item run, trailing blocks). -/
def sliceSelectedItems (r : ItemRange) (t : Nat) : List PMNode × List PMNode :=
  match r.ranged.getLast? with
  | some (.item ik blocks) =>
      let itemContentStart := r.start + sizeL r.ranged.dropLast + 1
      match findDeepBlock blocks (t - itemContentStart) with
      | some j =>
          (r.ranged.dropLast ++ [.item ik (blocks.take (j + 1))], blocks.drop (j + 1))
      | none => (r.ranged, [])
  | _ => (r.ranged, [])

/-! The transaction.  Steps are recorded with their position maps
(`StepMap`, a list of `(start, oldSize, newSize)` chunks exactly as the
host's `StepMap` stores them; `ReplaceAroundStep.getMap()` produces the
two-chunk map below).  The trace also records the `check()` call of the
reconstruction path, for reasoning about the order of mutation and
validation. -/

/-- A step's position map: `(start, oldSize, newSize)` chunks. -/
structure StepMap where
  ranges : List (Int × Int × Int)
deriving Repr, DecidableEq

/-- The host's `StepMap._map` fold with the default bias `assoc = 1`:
scan chunks accumulating the size difference; a position inside a chunk
maps to the chunk's start (when at the old start) or just after the
inserted content. -/
def pmMapGo : List (Int × Int × Int) → Int → Int → Int
  | [], diff, pos => pos + diff
  | (s, os, ns) :: rest, diff, pos =>
      if s > pos then pos + diff
      else if pos ≤ s + os then
        (if os ≠ 0 ∧ pos = s then s + diff else s + diff + ns)
      else pmMapGo rest (diff + ns - os) pos

/-- Map a position through one step map. -/
def StepMap.mapPos (m : StepMap) (p : Int) : Int := pmMapGo m.ranges 0 p

/-- Map a position through a transaction's steps in order (the cumulative
`tr.mapping`). -/
def mapThrough (ms : List StepMap) (p : Int) : Int :=
  ms.foldl (fun q m => m.mapPos q) p

/-- Trace events of a transaction: applied steps (with their maps) and the
`check()` assertion of the reconstruction path (with its verdict). -/
inductive Ev where
  | step (m : StepMap)
  | checkedNode (n : PMNode) (ok : Bool)
deriving Repr, DecidableEq

/-- The mutable transaction: current document, current selection
(`$from.pos`/`$to.pos` of a text selection, already ordered), and the
trace of what has been applied to it. -/
structure Tr where
  doc : Doc
  selFrom : Nat
  selTo : Nat
  trace : List Ev
deriving Repr, DecidableEq

/-- The maps of the steps applied so far (the transaction's mapping). -/
def Tr.maps (tr : Tr) : List StepMap :=
  tr.trace.filterMap fun e => match e with | .step m => some m | _ => none

/-- Outcome of a command: an ordinary boolean return, or a thrown
exception (`TransformError` from a failed step, or a failed `check()`)
propagating out of `indentList`. -/
inductive Outcome where
  | ret (b : Bool)
  | crash
deriving Repr, DecidableEq

/-- Model of `tr.step(new ReplaceAroundStep(a, b, gf, gt, slice, 1))` for
the slice `<list k></list k>` built in the same-type branch: the gap
`[gf, gt)` is inserted at offset 1 into the slice and the result replaces
`[a, b)`; the map is `ReplaceAroundStep.getMap()`.  A failed apply
(`none`) makes `tr.step` throw, leaving the transaction untouched.  (The
host also checks the gap slice is flat, which holds at this call's
geometry: both gap ends sit at the item level of one list.) -/
def stepReplaceAround (tr : Tr) (a b gf gt : Nat) (k : ListKind) : Option Tr :=
  let T := toksL tr.doc
  let gap := (T.drop gf).take (gt - gf)
  match replaceToks tr.doc a b (Tok.openL k :: (gap ++ [Tok.closeL k])) with
  | some d' =>
      some { tr with
               doc := d',
               trace := tr.trace ++
                 [.step ⟨[((a : Int), (gf : Int) - (a : Int), 1),
                          ((gt : Int), (b : Int) - (gt : Int), 1)]⟩] }
  | none => none

/-- Model of `tr.deleteRange(range.start, range.end)` at its call
geometry (the covered item span of the selected list): when the span
covers the whole list content, `coveredDepths` reports the list's depth
and, the list's content model `listItem+`/`taskListItem+` not admitting
an empty match, the delete widens to the list's own boundaries (this is
how an emptied list is removed entirely); the parent level is never
covered here because the reconstruction path guarantees a previous
sibling.  Otherwise the plain range is deleted. -/
def deleteRangeModel (tr : Tr) (r : ItemRange) : Option Tr :=
  let (a, b) :=
    if r.pre.isEmpty && r.post.isEmpty then (r.start - 1, r.rangeEnd + 1)
    else (r.start, r.rangeEnd)
  match replaceToks tr.doc a b [] with
  | some d' =>
      some { tr with
               doc := d',
               trace := tr.trace ++ [.step ⟨[((a : Int), (b : Int) - (a : Int), 0)]⟩] }
  | none => none

/-- Model of `tr.replaceRangeWith(a, b, n)` at its call geometry: `[a, b)`
are the exact node boundaries of the previous item and `n` a list item
valid at that position, so the fitted replace is the direct one. -/
def replaceRangeWithModel (tr : Tr) (a b : Nat) (n : PMNode) : Option Tr :=
  match replaceToks tr.doc a b (toks n) with
  | some d' =>
      some { tr with
               doc := d',
               trace := tr.trace ++
                 [.step ⟨[((a : Int), (b : Int) - (a : Int), (size n : Int))]⟩] }
  | none => none

/-- Model of `node.check()`: the node's subtree satisfies its content
models (an item: nonempty valid block content). -/
def checkNodeValid : PMNode → Bool
  | .para _ => true
  | .list k ns => !ns.isEmpty && validItems k ns
  | .item _ c => !c.isEmpty && validBs c

/-- `node.type` comparison (`previousList.type === selectedList.type`):
node types are equal iff the constructor and its kind tag agree. -/
def sameNodeType : PMNode → PMNode → Bool
  | .list k _, .list k' _ => decide (k = k')
  | .para _, .para _ => true
  | .item ik _, .item ik' _ => decide (ik = ik')
  | _, _ => false

/-- Children of a node (`node.content`). -/
def nodeContent : PMNode → List PMNode
  | .para _ => []
  | .list _ ns => ns
  | .item _ ns => ns

/-- `node.copy(content)`: same type and attributes, new children (call
sites only copy list and item nodes). -/
def copyNode : PMNode → List PMNode → PMNode
  | .para t, _ => .para t
  | .list k _, c => .list k c
  | .item ik _, c => .item ik c

/-- Translation of `indentList(tr)`.  Returns the transaction as left
behind (including on a thrown exception) and the outcome. -/
def indentList (tr : Tr) : Tr × Outcome :=
  let f := tr.selFrom
  let t := tr.selTo
  match calculateItemRange tr.doc f t with
  | none => (tr, .ret false)
  | some r =>
    -- selectedList = tr.doc.resolve(range.start).node(); the resolver
    -- returns the deepest enclosing list, so the subsequent
    -- `isListNode(selectedList)` guard holds by construction.
    let selectedList : PMNode := .list r.k r.items
    match findPreviousItem selectedList r with
    | none => (tr, .ret false)
    | some fpi =>
      if sameNodeType fpi.previousList selectedList then
        -- Swoosh things around: wrap the covered items into a fresh list
        -- node (selectedList.copy()) via one ReplaceAroundStep.
        match stepReplaceAround tr (r.start - 1) (r.rangeEnd - 1) r.start r.rangeEnd
            r.k with
        | none => (tr, .crash)
        | some tr1 =>
            (if fpi.viaSameList then { tr1 with selFrom := f, selTo := t }
             else { tr1 with selFrom := f - 2, selTo := t - 2 }, .ret true)
      else
        -- Reconstruct a suitable tree from copies.
        let (selContent, unsel) := sliceSelectedItems r t
        let newPreviousItemContent :=
          nodeContent fpi.previousItem ++ [copyNode selectedList selContent] ++ unsel
        match deleteRangeModel tr r with
        | none => (tr, .crash)
        | some tr1 =>
            let previousItemEnd := fpi.previousItemStart + size fpi.previousItem - 2
            let newPreviousItem := copyNode fpi.previousItem newPreviousItemContent
            let ok := checkNodeValid newPreviousItem
            let tr2 := { tr1 with trace := tr1.trace ++ [.checkedNode newPreviousItem ok] }
            if ok then
              match replaceRangeWithModel tr2 (fpi.previousItemStart - 1)
                  (previousItemEnd + 1) newPreviousItem with
              | none => (tr2, .crash)
              | some tr3 =>
                  (if fpi.viaSameList then { tr3 with selFrom := f, selTo := t }
                   else { tr3 with selFrom := f - 2, selTo := t - 2 }, .ret true)
            else (tr2, .crash)

/-! Derived definitions used by the statements: the rebuilt documents of
the two transform paths, the emitted step maps, context validity, the
parser's invariants, and position predicates. -/

/-- The document produced by the same-type path: the covered items,
wrapped in a fresh list of the selected list's kind, become the last child
of the previous item (`r.pre = ppre ++ [item ik pc]`). -/
def rebuildA (r : ItemRange) (ppre : List PMNode) (ik : ItemKind)
    (pc : List PMNode) : Doc :=
  plugB r.ctx (.list r.k (ppre ++ .item ik (pc ++ [.list r.k r.ranged]) :: r.post))

/-- The document produced by the reconstruction path: the previous sibling
list `list k' (pj ++ [item ik' pc'])` is rebuilt with its last item
extended by the new nested list (and any unselected trailing blocks), and
the covered items disappear from the selected list, which is dropped
entirely when emptied. -/
def rebuildB (r : ItemRange) (k' : ListKind) (pj : List PMNode) (ik' : ItemKind)
    (pc' : List PMNode) (selCont unsel : List PMNode) : Doc :=
  let newPrev : PMNode :=
    .list k' (pj ++ [.item ik' (pc' ++ .list r.k selCont :: unsel)])
  let c' := withNewPrevSib r.ctx newPrev
  if r.post.isEmpty then plug0 c' else plugB c' (.list r.k r.post)

/-- `ReplaceAroundStep.getMap()` of the same-type step
(`from = start - 1`, `gapFrom = start`, `gapTo = end`, `to = end - 1`,
`insert = 1`, slice size `2`). -/
def caseAMap (rs re : Nat) : StepMap :=
  ⟨[((rs : Int) - 1, 1, 1), ((re : Int), -1, 1)]⟩

/-- Map of a pure deletion step over `[a, b)`. -/
def delMap (a b : Nat) : StepMap := ⟨[((a : Int), (b : Int) - (a : Int), 0)]⟩

/-- Map of a replacement step over `[a, b)` inserting `n` tokens. -/
def insMap (a b n : Nat) : StepMap :=
  ⟨[((a : Int), (b : Int) - (a : Int), (n : Int))]⟩

/-- Wellformedness of a context: every node stored along it is valid in
its place (so plugging a valid block yields a valid document). -/
def ctxOk : BCtx → Bool
  | .top pre post => validBs pre && validBs post
  | .deeper c k ipre ipost ik bpre bpost =>
      ctxOk c && kindOk k ik && validItems k ipre && validItems k ipost &&
        validBs bpre && validBs bpost

/-- Rebuild the document from a scan level's full block list. -/
def plugLevel : CtxF → List PMNode → Doc
  | .ftop, bs => bs
  | .fdeeper c k ipre ipost ik, bs => plugB c (.list k (ipre ++ .item ik bs :: ipost))

/-- Absolute position of the first block of a scan level. -/
def levelStart : CtxF → Nat
  | .ftop => 0
  | .fdeeper c _ ipre _ _ => (ctxPre c).length + 1 + sizeL ipre + 1

/-- Wellformedness of a scan frame (the nodes it stores are valid). -/
def ctxFOk : CtxF → Bool
  | .ftop => true
  | .fdeeper c k ipre ipost ik =>
      ctxOk c && kindOk k ik && validItems k ipre && validItems k ipost

/-- Is position `p` strictly inside a paragraph (an inline position, where
the endpoints of a text selection live)?  Characterised on the token
stream: the token before `p` opens or continues text, the token at `p`
continues or closes it. -/
def inlineAt (d : Doc) (p : Nat) : Bool :=
  match p with
  | 0 => false
  | q + 1 =>
      (match (toksL d).get? q with
       | some .openP => true
       | some (.chr _) => true
       | _ => false) &&
      (match (toksL d).get? (q + 1) with
       | some (.chr _) => true
       | some .closeP => true
       | _ => false)

mutual
/-- The text of the paragraph strictly containing the relative offset
`off` of a node (`none` if `off` is not strictly inside a paragraph). -/
def paraIn (n : PMNode) (off : Nat) : Option (List Char) :=
  match n with
  | .para t => if 0 < off ∧ off < t.length + 2 then some t else none
  | .list _ ns => if 0 < off ∧ off < sizeL ns + 2 then paraInL ns (off - 1) else none
  | .item _ ns => if 0 < off ∧ off < sizeL ns + 2 then paraInL ns (off - 1) else none

/-- The text of the paragraph strictly containing offset `off` of a
sibling sequence. -/
def paraInL (ns : List PMNode) (off : Nat) : Option (List Char) :=
  match ns with
  | [] => none
  | n :: rest => if off < size n then paraIn n off else paraInL rest (off - size n)
end

/-- The paragraph text at document position `p` (when `p` is strictly
inside a paragraph). -/
def paraAt (d : Doc) (p : Nat) : Option (List Char) := paraInL d p

mutual
/-- Does every list node of the subtree have at least one child? -/
def listsNonempty : PMNode → Bool
  | .para _ => true
  | .list _ ns => !ns.isEmpty && listsNonemptyL ns
  | .item _ ns => listsNonemptyL ns

/-- `listsNonempty` over a sibling sequence. -/
def listsNonemptyL : List PMNode → Bool
  | [] => true
  | n :: ns => listsNonempty n && listsNonemptyL ns
end

/-- Validity of one list child of a list of kind `k` (elementwise form of
`validItems`). -/
def itemOkFor (k : ListKind) (n : PMNode) : Bool :=
  match n with
  | .item ik c => kindOk k ik && !c.isEmpty && validBs c
  | _ => false

/-- May the reader attach a block onto this stack? -/
def blockShape : List Opened → Bool
  | [] => true
  | .oi _ _ :: _ => true
  | _ => false

/-- Invariant of the reader's stack: collected children are valid, every
open paragraph or list sits at a block position, every open item sits in
an open list of a matching kind. -/
def stkInv : List Opened → Bool
  | [] => true
  | .op _ :: rest => blockShape rest && stkInv rest
  | .ol k its :: rest => blockShape rest && its.all (itemOkFor k) && stkInv rest
  | .oi ik bs :: rest =>
      bs.all validB &&
      (match rest with
       | .ol k _ :: _ => kindOk k ik
       | _ => false) &&
      stkInv rest

/-- Invariant of the full reader state. -/
def stInv (st : PSt) : Bool := stkInv st.stk && st.acc.all validB

/-- The tokens that produced an open node in its current state. -/
def openedToks : Opened → List Tok
  | .op txt => Tok.openP :: txt.reverse.map Tok.chr
  | .ol k its => Tok.openL k :: toksL its.reverse
  | .oi ik bs => Tok.openI ik :: toksL bs.reverse

/-- The tokens that produced a reader stack (outermost first). -/
def stkToks : List Opened → List Tok
  | [] => []
  | o :: rest => stkToks rest ++ openedToks o

/-- All tokens the reader has consumed to reach a state. -/
def consumed (st : PSt) : List Tok := toksL st.acc.reverse ++ stkToks st.stk

/-- Depth contribution of one token. -/
def tokDepth : Tok → Int
  | .openP => 1
  | .openL _ => 1
  | .openI _ => 1
  | .closeP => -1
  | .closeL _ => -1
  | .closeI _ => -1
  | .chr _ => 0

/-- Total depth balance of a token stream (zero on every well-formed
document). -/
def depthSum (ts : List Tok) : Int := (ts.map tokDepth).sum

/-- Is the event a `check()` record? -/
def isCheckEv : Ev → Bool
  | .checkedNode _ _ => true
  | _ => false

/-- Does a step event occur strictly before some `check()` event?  (The
flag records whether a step has been seen yet.) -/
def stepSeenBeforeCheck (seen : Bool) : List Ev → Bool
  | [] => false
  | .step _ :: rest => stepSeenBeforeCheck true rest
  | .checkedNode _ _ :: rest => seen || stepSeenBeforeCheck seen rest

/-- The modelled dedent transform, from spec section 4.3
(`list-command-dedent.ts` is not among the given sources).  Arguments
describe the nested range structurally: the grandparent list
`list gk (gpre ++ [parent item] ++ gpost)` sits at context `c`; the parent
item is `item ik (bpre ++ [list nk (npre ++ sel ++ npost)] ++ bpost)`; the
selected range `sel` is lifted out.  Per the spec: the selected items are
removed from the nested list (which is dropped entirely if emptied) and
spliced as siblings immediately after the parent item in the grandparent
list; trailing content after the nested list stays attached to the parent
item if part of the range stayed nested, and otherwise migrates into the
first promoted item's trailing content. -/
def dedentSpec (c : BCtx) (gk : ListKind) (gpre gpost : List PMNode)
    (ik : ItemKind) (bpre : List PMNode) (nk : ListKind)
    (npre sel npost : List PMNode) (bpost : List PMNode) : Doc :=
  let remaining := npre ++ npost
  let keepNested : List PMNode :=
    if remaining.isEmpty then [] else [.list nk remaining]
  let parentTail : List PMNode := if remaining.isEmpty then [] else bpost
  let promoted : List PMNode :=
    if remaining.isEmpty && !bpost.isEmpty then
      match sel with
      | .item ik1 c1 :: rest => .item ik1 (c1 ++ bpost) :: rest
      | other => other
    else sel
  plugB c (.list gk
    (gpre ++ .item ik (bpre ++ keepNested ++ parentTail) :: (promoted ++ gpost)))

/-- The document shape `dedentSpec` acts on (same arguments): the range
`sel` nested inside the parent item's nested list. -/
def dedentInput (c : BCtx) (gk : ListKind) (gpre gpost : List PMNode)
    (ik : ItemKind) (bpre : List PMNode) (nk : ListKind)
    (npre sel npost : List PMNode) (bpost : List PMNode) : Doc :=
  plugB c (.list gk
    (gpre ++ .item ik (bpre ++ .list nk (npre ++ sel ++ npost) :: bpost) :: gpost))

/-! Token, size and validity algebra. -/

theorem toksL_append (xs ys : List PMNode) :
    toksL (xs ++ ys) = toksL xs ++ toksL ys := by
  induction xs with
  | nil => simp [toksL]
  | cons n ns ih => simp [toksL, ih]

mutual
theorem toks_len (n : PMNode) : (toks n).length = size n := by
  match n with
  | .para t => simp [toks, size]
  | .list k ns => simp [toks, size, toksL_len ns]
  | .item ik ns => simp [toks, size, toksL_len ns]

theorem toksL_len (ns : List PMNode) : (toksL ns).length = sizeL ns := by
  match ns with
  | [] => simp [toksL, sizeL]
  | n :: rest => simp [toksL, sizeL, toks_len n, toksL_len rest]
end

theorem sizeL_append (xs ys : List PMNode) :
    sizeL (xs ++ ys) = sizeL xs + sizeL ys := by
  induction xs with
  | nil => simp [sizeL]
  | cons n ns ih => simp [sizeL, ih]; omega

theorem size_pos (n : PMNode) : 2 ≤ size n := by
  cases n <;> simp [size]

theorem validBs_append (xs ys : List PMNode) :
    validBs (xs ++ ys) = (validBs xs && validBs ys) := by
  induction xs with
  | nil => simp [validBs]
  | cons n ns ih => simp [validBs, ih, Bool.and_assoc]

theorem validItems_append (k : ListKind) (xs ys : List PMNode) :
    validItems k (xs ++ ys) = (validItems k xs && validItems k ys) := by
  induction xs with
  | nil => simp [validItems]
  | cons n ns ih =>
      cases n with
      | para t => simp [validItems]
      | list k2 ns2 => simp [validItems]
      | item ik c => simp [validItems, ih, Bool.and_assoc]

theorem validItems_eq_all (k : ListKind) (ns : List PMNode) :
    validItems k ns = ns.all (itemOkFor k) := by
  induction ns with
  | nil => simp [validItems]
  | cons n rest ih =>
      cases n with
      | para t => simp [validItems, itemOkFor]
      | list k2 ns2 => simp [validItems, itemOkFor]
      | item ik c => simp [validItems, itemOkFor, ih, Bool.and_assoc]

theorem validBs_eq_all (bs : List PMNode) : validBs bs = bs.all validB := by
  induction bs with
  | nil => simp [validBs]
  | cons b rest ih => simp [validBs, ih]

/-! Context lemmas. -/

theorem toksL_plugB (c : BCtx) (b : PMNode) :
    toksL (plugB c b) = ctxPre c ++ toks b ++ ctxSuf c := by
  induction c generalizing b with
  | top pre post => simp [plugB, ctxPre, ctxSuf, toksL_append, toksL]
  | deeper c k ipre ipost ik bpre bpost ih =>
      simp only [plugB, ctxPre, ctxSuf]
      rw [ih]
      simp [toks, toksL_append, toksL]

theorem toksL_plug0 (c : BCtx) : toksL (plug0 c) = ctxPre c ++ ctxSuf c := by
  cases c with
  | top pre post => simp [plug0, ctxPre, ctxSuf, toksL_append]
  | deeper c k ipre ipost ik bpre bpost =>
      simp only [plug0, ctxPre, ctxSuf]
      rw [toksL_plugB]
      simp [toks, toksL_append, toksL]

theorem plugB_ne_nil (c : BCtx) (b : PMNode) : plugB c b ≠ [] := by
  induction c generalizing b with
  | top pre post => simp [plugB]
  | deeper c k ipre ipost ik bpre bpost ih => simp only [plugB]; exact ih _

theorem validDoc_plugB (c : BCtx) (b : PMNode) :
    validDoc (plugB c b) = true ↔ (ctxOk c = true ∧ validB b = true) := by
  induction c generalizing b with
  | top pre post =>
      simp [validDoc, plugB, ctxOk, validBs_append, validBs]
      tauto
  | deeper c k ipre ipost ik bpre bpost ih =>
      simp only [plugB]
      rw [ih]
      simp [ctxOk, validB, validItems_append, validItems, validBs_append, validBs,
        Bool.and_eq_true]
      tauto

/-! Resolver soundness: a returned range decomposes the document. -/

theorem plugB_mkCtx (fr : CtxF) (pre post : List PMNode) (b : PMNode) :
    plugB (mkCtx fr pre post) b = plugLevel fr (pre ++ b :: post) := by
  cases fr <;> simp [mkCtx, plugB, plugLevel]

theorem ctxPre_mkCtx_len (fr : CtxF) (pre post : List PMNode) :
    (ctxPre (mkCtx fr pre post)).length = levelStart fr + sizeL pre := by
  cases fr with
  | ftop => simp [mkCtx, ctxPre, levelStart, toksL_len]
  | fdeeper c k ipre ipost ik =>
      simp [mkCtx, ctxPre, levelStart, toksL_len]
      omega

theorem idxAfterTo_le (ns : List PMNode) (base t : Nat) :
    idxAfterTo ns base t ≤ ns.length := by
  induction ns generalizing base with
  | nil => simp [idxAfterTo]
  | cons n rest ih =>
      rw [idxAfterTo]
      by_cases hb : base < t
      · simp only [hb, if_true, List.length_cons]
        exact Nat.succ_le_succ (ih _)
      · simp [hb]

theorem idxAfterTo_bound (ns : List PMNode) (base t : Nat)
    (h : idxAfterTo ns base t < ns.length) :
    t ≤ base + sizeL (ns.take (idxAfterTo ns base t)) := by
  induction ns generalizing base with
  | nil => simp at h
  | cons n rest ih =>
      rw [idxAfterTo] at h ⊢
      by_cases hb : base < t
      · simp only [hb, if_true] at h ⊢
        simp only [List.length_cons, Nat.add_lt_add_iff_right] at h
        have := ih (base + size n) h
        simp [List.take_cons, sizeL]
        omega
      · simp only [hb, if_false]
        simp [sizeL]
        omega

theorem take_take_drop_eq (ns : List PMNode) (s e : Nat) (hse : s ≤ e) :
    ns.take s ++ ((ns.drop s).take (e - s) ++ ns.drop e) = ns := by
  have h1 : (ns.drop s).drop (e - s) = ns.drop e := by
    rw [List.drop_drop]
    congr 1
    omega
  rw [← h1, List.take_append_drop, List.take_append_drop]

theorem take_add_sizeL (ns : List PMNode) (s e : Nat) (hse : s ≤ e) :
    sizeL (ns.take s) + sizeL ((ns.drop s).take (e - s)) = sizeL (ns.take e) := by
  have : ns.take e = ns.take (s + (e - s)) := by congr 1; omega
  rw [this, List.take_add, sizeL_append]

theorem goBs_nil (fr : CtxF) (pre : List PMNode) (pos f t : Nat) :
    goBs fr pre [] pos f t = none := by
  rw [goBs.eq_def]

theorem goBs_cons_para (fr : CtxF) (pre : List PMNode) (txt : List Char)
    (rest : List PMNode) (pos f t : Nat) :
    goBs fr pre (.para txt :: rest) pos f t =
      if f ≤ pos then none
      else if pos + size (.para txt) ≤ f then
        goBs fr (pre ++ [.para txt]) rest (pos + size (.para txt)) f t
      else none := by
  rw [goBs.eq_def]

theorem goBs_cons_item (fr : CtxF) (pre : List PMNode) (ik : ItemKind)
    (cnt rest : List PMNode) (pos f t : Nat) :
    goBs fr pre (.item ik cnt :: rest) pos f t =
      if f ≤ pos then none
      else if pos + size (.item ik cnt) ≤ f then
        goBs fr (pre ++ [.item ik cnt]) rest (pos + size (.item ik cnt)) f t
      else none := by
  rw [goBs.eq_def]

theorem goBs_cons_list (fr : CtxF) (pre : List PMNode) (k : ListKind)
    (its rest : List PMNode) (pos f t : Nat) :
    goBs fr pre (.list k its :: rest) pos f t =
      if f ≤ pos then none
      else if pos + size (.list k its) ≤ f then
        goBs fr (pre ++ [.list k its]) rest (pos + size (.list k its)) f t
      else
        match goItems (mkCtx fr pre rest) k [] its (pos + 1) f t with
        | some r => some r
        | none =>
            if t ≤ pos + 1 + sizeL its then
              buildRange (mkCtx fr pre rest) k its (pos + 1) f t
            else none := by
  rw [goBs.eq_def]

theorem goItems_nil (c : BCtx) (k : ListKind) (ipre : List PMNode) (pos f t : Nat) :
    goItems c k ipre [] pos f t = none := by
  rw [goItems.eq_def]

theorem goItems_cons_para (c : BCtx) (k : ListKind) (ipre : List PMNode)
    (txt : List Char) (rest : List PMNode) (pos f t : Nat) :
    goItems c k ipre (.para txt :: rest) pos f t =
      if f ≤ pos then none
      else if pos + size (.para txt) ≤ f then
        goItems c k (ipre ++ [.para txt]) rest (pos + size (.para txt)) f t
      else none := by
  rw [goItems.eq_def]

theorem goItems_cons_list (c : BCtx) (k k2 : ListKind) (ipre : List PMNode)
    (its2 rest : List PMNode) (pos f t : Nat) :
    goItems c k ipre (.list k2 its2 :: rest) pos f t =
      if f ≤ pos then none
      else if pos + size (.list k2 its2) ≤ f then
        goItems c k (ipre ++ [.list k2 its2]) rest (pos + size (.list k2 its2)) f t
      else none := by
  rw [goItems.eq_def]

theorem goItems_cons_item (c : BCtx) (k : ListKind) (ipre : List PMNode)
    (ik : ItemKind) (cnt rest : List PMNode) (pos f t : Nat) :
    goItems c k ipre (.item ik cnt :: rest) pos f t =
      if f ≤ pos then none
      else if pos + size (.item ik cnt) ≤ f then
        goItems c k (ipre ++ [.item ik cnt]) rest (pos + size (.item ik cnt)) f t
      else goBs (.fdeeper c k ipre rest ik) [] cnt (pos + 1) f t := by
  rw [goItems.eq_def]

mutual
theorem goBs_sound (fr : CtxF) (pre bs : List PMNode) (pos f t : Nat)
    (r : ItemRange) (hpos : pos = levelStart fr + sizeL pre)
    (h : goBs fr pre bs pos f t = some r) :
    plugLevel fr (pre ++ bs) = plugB r.ctx (.list r.k r.items) ∧
      r.ranged ≠ [] ∧ t ≤ r.rangeEnd := by
  match bs with
  | [] => rw [goBs_nil] at h; exact absurd h (by simp)
  | b :: rest =>
      by_cases h1 : f ≤ pos
      · match b with
        | .para txt => rw [goBs_cons_para] at h; simp [h1] at h
        | .item ik cnt => rw [goBs_cons_item] at h; simp [h1] at h
        | .list k its => rw [goBs_cons_list] at h; simp [h1] at h
      · by_cases h2 : pos + size b ≤ f
        · have hpos2 : pos + size b = levelStart fr + sizeL (pre ++ [b]) := by
            rw [sizeL_append, hpos]; simp [sizeL]; omega
          have hrec : goBs fr (pre ++ [b]) rest (pos + size b) f t = some r := by
            match b with
            | .para txt => rw [goBs_cons_para] at h; simpa [h1, h2] using h
            | .item ik cnt => rw [goBs_cons_item] at h; simpa [h1, h2] using h
            | .list k its => rw [goBs_cons_list] at h; simpa [h1, h2] using h
          have := goBs_sound fr (pre ++ [b]) rest (pos + size b) f t r hpos2 hrec
          simpa using this
        · match b with
          | .para txt => rw [goBs_cons_para] at h; simp [h1, h2] at h
          | .item ik cnt => rw [goBs_cons_item] at h; simp [h1, h2] at h
          | .list k its =>
              rw [goBs_cons_list] at h
              simp only [h1, h2, if_false] at h
              cases hgi : goItems (mkCtx fr pre rest) k [] its (pos + 1) f t with
              | some r2 =>
                  rw [hgi] at h
                  simp only [Option.some.injEq] at h
                  subst h
                  have hpos2 : pos + 1 = (ctxPre (mkCtx fr pre rest)).length + 1 +
                      sizeL ([] : List PMNode) := by
                    rw [ctxPre_mkCtx_len]; simp [sizeL]; omega
                  have := goItems_sound (mkCtx fr pre rest) k [] its (pos + 1) f t r2
                    hpos2 hgi
                  rw [← plugB_mkCtx fr pre rest (.list k its)]
                  simpa using this
              | none =>
                  rw [hgi] at h
                  by_cases h3 : t ≤ pos + 1 + sizeL its
                  · simp only [h3, if_true, buildRange] at h
                    by_cases h4 : idxFrom its (pos + 1) f < idxAfterTo its (pos + 1) t
                    · simp only [h4, if_true, Option.some.injEq] at h
                      subst h
                      have hse : idxFrom its (pos + 1) f ≤ idxAfterTo its (pos + 1) t :=
                        Nat.le_of_lt h4
                      have hel := idxAfterTo_le its (pos + 1) t
                      refine ⟨?_, ?_, ?_⟩
                      · rw [← plugB_mkCtx fr pre rest (.list k its)]
                        simp only [ItemRange.items]
                        rw [List.append_assoc, take_take_drop_eq its _ _ hse]
                      · intro hnil
                        have := congrArg List.length hnil
                        simp [List.length_take, List.length_drop] at this
                        omega
                      · simp only [ItemRange.rangeEnd, ItemRange.start,
                          ItemRange.listStart]
                        rw [ctxPre_mkCtx_len]
                        rw [Nat.add_assoc, take_add_sizeL its _ _ hse]
                        by_cases he : idxAfterTo its (pos + 1) t < its.length
                        · have := idxAfterTo_bound its (pos + 1) t he
                          simp [levelStart, sizeL] at hpos ⊢
                          omega
                        · have heq : idxAfterTo its (pos + 1) t = its.length := by omega
                          rw [heq, List.take_length]
                          omega
                    · simp [h4] at h
                  · simp [h3] at h

theorem goItems_sound (c : BCtx) (k : ListKind) (ipre ns : List PMNode)
    (pos f t : Nat) (r : ItemRange)
    (hpos : pos = (ctxPre c).length + 1 + sizeL ipre)
    (h : goItems c k ipre ns pos f t = some r) :
    plugB c (.list k (ipre ++ ns)) = plugB r.ctx (.list r.k r.items) ∧
      r.ranged ≠ [] ∧ t ≤ r.rangeEnd := by
  match ns with
  | [] => rw [goItems_nil] at h; exact absurd h (by simp)
  | n :: rest =>
      by_cases h1 : f ≤ pos
      · match n with
        | .para txt => rw [goItems_cons_para] at h; simp [h1] at h
        | .list k2 its2 => rw [goItems_cons_list] at h; simp [h1] at h
        | .item ik cnt => rw [goItems_cons_item] at h; simp [h1] at h
      · by_cases h2 : pos + size n ≤ f
        · have hpos2 : pos + size n = (ctxPre c).length + 1 + sizeL (ipre ++ [n]) := by
            rw [sizeL_append, hpos]; simp [sizeL]; omega
          have hrec : goItems c k (ipre ++ [n]) rest (pos + size n) f t = some r := by
            match n with
            | .para txt => rw [goItems_cons_para] at h; simpa [h1, h2] using h
            | .list k2 its2 => rw [goItems_cons_list] at h; simpa [h1, h2] using h
            | .item ik cnt => rw [goItems_cons_item] at h; simpa [h1, h2] using h
          have := goItems_sound c k (ipre ++ [n]) rest (pos + size n) f t r hpos2 hrec
          simpa using this
        · match n with
          | .para txt => rw [goItems_cons_para] at h; simp [h1, h2] at h
          | .list k2 its2 => rw [goItems_cons_list] at h; simp [h1, h2] at h
          | .item ik cnt =>
              rw [goItems_cons_item] at h
              simp only [h1, h2, if_false] at h
              have hpos2 : pos + 1 =
                  levelStart (.fdeeper c k ipre rest ik) + sizeL ([] : List PMNode) := by
                simp [levelStart, sizeL]; omega
              have := goBs_sound (.fdeeper c k ipre rest ik) [] cnt (pos + 1) f t r
                hpos2 h
              simpa [plugLevel] using this
end

theorem calc_sound (d : Doc) (f t : Nat) (r : ItemRange)
    (h : calculateItemRange d f t = some r) :
    d = plugB r.ctx (.list r.k r.items) ∧ r.ranged ≠ [] ∧ t ≤ r.rangeEnd := by
  have := goBs_sound .ftop [] d 0 f t r (by simp [levelStart, sizeL]) h
  simpa [plugLevel] using this

/-! Reader soundness: a successfully read stream is a valid document, and
reading balances open and close tokens. -/

theorem blockPos_eq_blockShape (stk : List Opened) (acc : List PMNode) :
    blockPos ⟨stk, acc⟩ = blockShape stk := by
  match stk with
  | [] => rfl
  | .op _ :: _ => rfl
  | .ol _ _ :: _ => rfl
  | .oi _ _ :: _ => rfl

theorem pstep_inv (st st' : PSt) (tk : Tok) (hi : stInv st = true)
    (h : pstep st tk = some st') : stInv st' = true := by
  obtain ⟨stk, acc⟩ := st
  simp only [stInv, Bool.and_eq_true] at hi
  obtain ⟨hstk, hacc⟩ := hi
  cases tk with
  | openP =>
      simp only [pstep, blockPos_eq_blockShape] at h
      by_cases hb : blockShape stk = true
      · simp only [hb, if_true, Option.some.injEq] at h
        subst h
        simp [stInv, stkInv, hb, hstk, hacc]
      · simp [hb] at h
  | chr c =>
      match stk with
      | [] => simp [pstep] at h
      | .op txt :: rest =>
          simp only [pstep, Option.some.injEq] at h
          subst h
          simp only [stkInv, Bool.and_eq_true] at hstk
          simp [stInv, stkInv, hstk.1, hstk.2, hacc]
      | .ol _ _ :: _ => simp [pstep] at h
      | .oi _ _ :: _ => simp [pstep] at h
  | closeP =>
      match stk with
      | [] => simp [pstep] at h
      | .op txt :: rest =>
          simp only [pstep, Option.some.injEq] at h
          simp only [stkInv, Bool.and_eq_true] at hstk
          obtain ⟨hbs, hrest⟩ := hstk
          match rest with
          | [] =>
              subst h
              simp [addB, stInv, stkInv, hacc, validB]
          | .oi ik bs :: r2 =>
              subst h
              simp only [stkInv, Bool.and_eq_true] at hrest
              obtain ⟨⟨hall, hpm⟩, hr2⟩ := hrest
              simp only [addB, stInv, stkInv, Bool.and_eq_true]
              refine ⟨⟨⟨?_, ?_⟩, ?_⟩, hacc⟩
              · simp [validB, hall]
              · exact hpm
              · exact hr2
          | .op _ :: _ => simp [blockShape] at hbs
          | .ol _ _ :: _ => simp [blockShape] at hbs
      | .ol _ _ :: _ => simp [pstep] at h
      | .oi _ _ :: _ => simp [pstep] at h
  | openL k =>
      simp only [pstep, blockPos_eq_blockShape] at h
      by_cases hb : blockShape stk = true
      · simp only [hb, if_true, Option.some.injEq] at h
        subst h
        simp [stInv, stkInv, hb, hstk, hacc]
      · simp [hb] at h
  | closeL k =>
      match stk with
      | [] => simp [pstep] at h
      | .op _ :: _ => simp [pstep] at h
      | .oi _ _ :: _ => simp [pstep] at h
      | .ol k' its :: rest =>
          simp only [pstep] at h
          by_cases hc : (decide (k = k') && !its.isEmpty) = true
          · simp only [hc, if_true, Option.some.injEq] at h
            simp only [Bool.and_eq_true, decide_eq_true_eq] at hc
            obtain ⟨hkk, hne⟩ := hc
            subst hkk
            simp only [stkInv, Bool.and_eq_true] at hstk
            obtain ⟨⟨hbsOk, hall⟩, hrest⟩ := hstk
            have hvb : validB (.list k its.reverse) = true := by
              simp only [validB, validItems_eq_all, List.all_reverse,
                Bool.and_eq_true]
              refine ⟨?_, hall⟩
              cases its with
              | nil => simp at hne
              | cons a l => simp
            match rest with
            | [] =>
                subst h
                simp [addB, stInv, stkInv, hacc, hvb]
            | .oi ik2 bs2 :: r2 =>
                subst h
                simp only [stkInv, Bool.and_eq_true] at hrest
                obtain ⟨⟨hall2, hpm2⟩, hr2⟩ := hrest
                simp only [addB, stInv, stkInv, Bool.and_eq_true]
                exact ⟨⟨⟨by simp [hvb, hall2], hpm2⟩, hr2⟩, hacc⟩
            | .op _ :: _ => simp [blockShape] at hbsOk
            | .ol _ _ :: _ => simp [blockShape] at hbsOk
          · simp [hc] at h
  | openI ik =>
      match stk with
      | [] => simp [pstep] at h
      | .op _ :: _ => simp [pstep] at h
      | .oi _ _ :: _ => simp [pstep] at h
      | .ol k its :: rest =>
          simp only [pstep] at h
          by_cases hk : kindOk k ik = true
          · simp only [hk, if_true, Option.some.injEq] at h
            subst h
            simp only [stkInv, Bool.and_eq_true] at hstk
            obtain ⟨⟨hbsOk, hall⟩, hrest⟩ := hstk
            simp only [stInv, stkInv, Bool.and_eq_true]
            exact ⟨⟨⟨by simp, hk⟩, ⟨⟨hbsOk, hall⟩, hrest⟩⟩, hacc⟩
          · simp [hk] at h
  | closeI srt =>
      match stk with
      | [] => simp [pstep] at h
      | .op _ :: _ => simp [pstep] at h
      | .ol _ _ :: _ => simp [pstep] at h
      | [.oi ik bs] => simp [pstep] at h
      | .oi ik bs :: .op _ :: _ => simp [pstep] at h
      | .oi ik bs :: .oi _ _ :: _ => simp [pstep] at h
      | .oi ik bs :: .ol k its :: r2 =>
          simp only [pstep] at h
          by_cases hc : (decide (srt = sortOf ik) && !bs.isEmpty) = true
          · simp only [hc, if_true, Option.some.injEq] at h
            subst h
            simp only [Bool.and_eq_true, decide_eq_true_eq] at hc
            obtain ⟨hsrt, hne⟩ := hc
            simp only [stkInv, Bool.and_eq_true] at hstk
            obtain ⟨⟨hall, hkm⟩, ⟨hbsOk2, hall2⟩, hr2⟩ := hstk
            have hio : itemOkFor k (.item ik bs.reverse) = true := by
              simp only [itemOkFor, validBs_eq_all, List.all_reverse,
                Bool.and_eq_true]
              refine ⟨⟨hkm, ?_⟩, hall⟩
              cases bs with
              | nil => simp at hne
              | cons a l => simp
            simp only [stInv, stkInv, Bool.and_eq_true]
            exact ⟨⟨⟨hbsOk2, by simp [hio, hall2]⟩, hr2⟩, hacc⟩
          · simp [hc] at h

/-- The maps of the steps a command appended to a transaction extending
`tr` into `tr2` (the composition of these is the command's cumulative
position mapping). -/
def emittedMaps (tr tr2 : Tr) : List StepMap :=
  (tr2.trace.drop tr.trace.length).filterMap fun e =>
    match e with
    | .step m => some m
    | _ => none

/-! Concrete documents, taken from the test scenarios. -/

/-- Three-item list `List[Item "item 1", Item "item 2", Item "item 3"]`. -/
def doc3 (k : ListKind) (ik : ItemKind) : Doc :=
  [.list k [.item ik [.para "item 1".toList], .item ik [.para "item 2".toList],
    .item ik [.para "item 3".toList]]]

/-- The simple-indent result: item 2 alone in a new nested list inside
item 1, item 3 still a sibling. -/
def doc3res (k : ListKind) (ik : ItemKind) : Doc :=
  [.list k [.item ik [.para "item 1".toList,
      .list k [.item ik [.para "item 2".toList]]],
    .item ik [.para "item 3".toList]]]

/-- Transaction with the cursor inside item 2 of `doc3` (position 13). -/
def tr3 (k : ListKind) (ik : ItemKind) : Tr := ⟨doc3 k ik, 13, 13, []⟩

/-- A bullet list followed by a task list (different list types). -/
def docX : Doc :=
  [.list .bullet [.item .plain [.para ['a']]],
   .list .task [.item (.taskItem false) [.para ['b']]]]

/-- Result of indenting the task item of `docX`: the emptied task list is
rebuilt inside the bullet item. -/
def docXres : Doc :=
  [.list .bullet [.item .plain [.para ['a'],
    .list .task [.item (.taskItem false) [.para ['b']]]]]]

/-- A bullet list whose first item already holds a nested bullet list. -/
def docN : Doc :=
  [.list .bullet [.item .plain [.para ['a'],
      .list .bullet [.item .plain [.para ['x']]]],
    .item .plain [.para ['b']]]]

/-- What indenting item "b" of `docN` produces: a second nested list next
to the existing one. -/
def docNres : Doc :=
  [.list .bullet [.item .plain [.para ['a'],
      .list .bullet [.item .plain [.para ['x']]],
      .list .bullet [.item .plain [.para ['b']]]]]]

/-- What splicing into the existing nested list would produce instead. -/
def docNpred : Doc :=
  [.list .bullet [.item .plain [.para ['a'],
      .list .bullet [.item .plain [.para ['x']],
        .item .plain [.para ['b']]]]]]

/-- A single one-item list (its only item is the first item). -/
def docFirst (k : ListKind) (ik : ItemKind) : Doc :=
  [.list k [.item ik [.para ['a']]]]

/-! Reader lemmas. -/

theorem runT_append (xs ys : List Tok) (st : Option PSt) :
    runT (xs ++ ys) st = runT ys (runT xs st) := by
  simp [runT, List.foldl_append]

theorem runT_none (ts : List Tok) : runT ts none = none := by
  induction ts with
  | nil => rfl
  | cons t ts ih => simpa [runT] using ih

theorem runT_cons (t : Tok) (ts : List Tok) (st : PSt) :
    runT (t :: ts) (some st) = runT ts (pstep st t) := by
  simp [runT]

theorem addBsF_cons (b : PMNode) (bs : List PMNode) (st : PSt) :
    addBsF (b :: bs) st = addBsF bs (addB b st) := rfl

theorem blockPos_addB (b : PMNode) (st : PSt) (h : blockPos st = true) :
    blockPos (addB b st) = true := by
  unfold blockPos at h ⊢
  unfold addB
  match hs : st.stk with
  | [] => simp [hs]
  | .oi ik bs :: rest => simp [hs]
  | .op _ :: _ => simp [hs] at h
  | .ol _ _ :: _ => simp [hs] at h

theorem addBsF_oi (c : List PMNode) (ik : ItemKind) (bs : List PMNode)
    (tail : List Opened) (acc : List PMNode) :
    addBsF c ⟨.oi ik bs :: tail, acc⟩ = ⟨.oi ik (c.reverse ++ bs) :: tail, acc⟩ := by
  induction c generalizing bs with
  | nil => simp [addBsF]
  | cons b c ih => simp [addBsF_cons, addB, ih]

theorem addBsF_top (bs : List PMNode) (acc : List PMNode) :
    addBsF bs ⟨[], acc⟩ = ⟨[], bs.reverse ++ acc⟩ := by
  induction bs generalizing acc with
  | nil => simp [addBsF]
  | cons b bs ih => simp [addBsF_cons, addB, ih]

theorem runT_chars (t txt : List Char) (rest : List Opened) (acc : List PMNode) :
    runT (t.map Tok.chr) (some ⟨.op txt :: rest, acc⟩)
      = some ⟨.op (t.reverse ++ txt) :: rest, acc⟩ := by
  induction t generalizing txt with
  | nil => simp [runT]
  | cons c t ih =>
      rw [List.map_cons, runT_cons]
      simp only [pstep]
      rw [ih]
      simp

mutual
/-- Reading the tokens of a valid block at a block position attaches
exactly that block. -/
theorem runT_toks_block (b : PMNode) (st : PSt) (hv : validB b = true)
    (hp : blockPos st = true) :
    runT (toks b) (some st) = some (addB b st) := by
  match b with
  | .para t =>
      rw [toks, runT_cons]
      simp only [pstep, hp, if_true]
      rw [runT_append, runT_chars, runT_cons]
      simp only [pstep]
      simp [runT]
  | .list k ns =>
      rw [toks, runT_cons]
      simp only [pstep, hp, if_true]
      rw [runT_append]
      rw [validB] at hv
      simp only [Bool.and_eq_true] at hv
      rw [runT_toks_items ns k [] st.stk st.acc hv.2]
      rw [runT_cons]
      simp only [pstep]
      have hne : ns.reverse.isEmpty = false := by
        cases ns with
        | nil => simp at hv
        | cons a l => simp
      simp [hne, runT]
  | .item _ _ => rw [validB] at hv; exact absurd hv (by simp)

/-- Reading the tokens of a valid block sequence at a block position
attaches all its blocks in order. -/
theorem runT_toks_blocks (bs : List PMNode) (st : PSt) (hv : validBs bs = true)
    (hp : blockPos st = true) :
    runT (toksL bs) (some st) = some (addBsF bs st) := by
  match bs with
  | [] => simp [toksL, runT, addBsF]
  | b :: bs =>
      rw [toksL, runT_append]
      rw [validBs] at hv
      simp only [Bool.and_eq_true] at hv
      rw [runT_toks_block b st hv.1 hp]
      rw [runT_toks_blocks bs (addB b st) hv.2 (blockPos_addB b st hp)]
      rw [addBsF_cons]

/-- Reading the tokens of valid item children inside an open list of the
matching kind accumulates exactly those items. -/
theorem runT_toks_items (ns : List PMNode) (k : ListKind) (its : List PMNode)
    (rest : List Opened) (acc : List PMNode) (hv : validItems k ns = true) :
    runT (toksL ns) (some ⟨.ol k its :: rest, acc⟩)
      = some ⟨.ol k (ns.reverse ++ its) :: rest, acc⟩ := by
  match ns with
  | [] => simp [toksL, runT]
  | .para _ :: _ => simp [validItems] at hv
  | .list _ _ :: _ => simp [validItems] at hv
  | .item ik c :: ns =>
      rw [validItems] at hv
      simp only [Bool.and_eq_true] at hv
      obtain ⟨⟨⟨hk, hc⟩, hcv⟩, hns⟩ := hv
      rw [toksL, runT_append, toks, runT_cons]
      simp only [pstep, hk, if_true]
      rw [runT_append]
      rw [runT_toks_blocks c ⟨.oi ik [] :: .ol k its :: rest, acc⟩ hcv (by simp [blockPos])]
      rw [addBsF_oi]
      have hne : (c.reverse ++ ([] : List PMNode)).isEmpty = false := by
        cases c with
        | nil => simp at hc
        | cons a l => simp
      have hcne : c ≠ [] := by cases c <;> simp_all
      have hone : runT [Tok.closeI (sortOf ik)]
          (some ⟨.oi ik (c.reverse ++ []) :: .ol k its :: rest, acc⟩)
          = some ⟨.ol k (.item ik c :: its) :: rest, acc⟩ := by
        simp [runT, pstep, hne, hcne]
      rw [hone]
      rw [runT_toks_items ns k (.item ik c :: its) rest acc hns]
      simp
end

/-- Reading the full token stream of a valid document yields the document
back: the completeness direction of the reader, used to evaluate every
successful splice. -/
theorem parse_toksL (d : Doc) (h : validDoc d = true) : parse (toksL d) = some d := by
  rw [validDoc] at h
  simp only [Bool.and_eq_true] at h
  rw [parse, runT_toks_blocks d ⟨[], []⟩ h.2 (by simp [blockPos]), addBsF_top]
  have : d.reverse.isEmpty = false := by
    cases d with
    | nil => simp at h
    | cons a l => simp
  simp [this]

/-! Reader invariants. -/

theorem runT_inv (ts : List Tok) (st st' : PSt) (hi : stInv st = true)
    (h : runT ts (some st) = some st') : stInv st' = true := by
  induction ts generalizing st with
  | nil => simp [runT] at h; subst h; exact hi
  | cons tk ts ih =>
      rw [runT_cons] at h
      cases hp : pstep st tk with
      | none => rw [hp, runT_none] at h; exact absurd h (by simp)
      | some st1 =>
          rw [hp] at h
          exact ih st1 (pstep_inv st st1 tk hi hp) h

/-- A stream the reader accepts is a valid document. -/
theorem parse_valid (ts : List Tok) (d : Doc) (h : parse ts = some d) :
    validDoc d = true := by
  rw [parse] at h
  cases hr : runT ts (some ⟨[], []⟩) with
  | none => rw [hr] at h; exact absurd h (by simp)
  | some st' =>
      rw [hr] at h
      have hinv := runT_inv ts ⟨[], []⟩ st' (by simp [stInv, stkInv]) hr
      match st' with
      | ⟨[], acc⟩ =>
          simp only at h
          by_cases he : acc.isEmpty
          · simp [he] at h
          · simp only [he, if_false, Option.some.injEq] at h
            have hall : acc.all validB = true := by
              simp only [stInv, stkInv, Bool.and_eq_true] at hinv
              exact hinv.2
            simp only [if_false, Option.some.injEq, Bool.false_eq_true] at h
            subst h
            simp only [validDoc, validBs_eq_all, List.all_reverse, Bool.and_eq_true]
            constructor
            · cases acc with
              | nil => simp at he
              | cons a l => simp
            · exact hall
      | ⟨.op _ :: _, _⟩ => simp at h
      | ⟨.ol _ _ :: _, _⟩ => simp at h
      | ⟨.oi _ _ :: _, _⟩ => simp at h

theorem pstep_stklen (st st' : PSt) (tk : Tok) (h : pstep st tk = some st') :
    (st'.stk.length : Int) = st.stk.length + tokDepth tk := by
  obtain ⟨stk, acc⟩ := st
  cases tk with
  | openP =>
      simp only [pstep] at h
      by_cases hb : blockPos ⟨stk, acc⟩ = true
      · simp only [hb, if_true, Option.some.injEq] at h
        subst h
        simp [tokDepth]
      · simp [hb] at h
  | chr c =>
      match stk with
      | [] => simp [pstep] at h
      | .op txt :: rest =>
          simp only [pstep, Option.some.injEq] at h
          subst h
          simp [tokDepth]
      | .ol _ _ :: _ => simp [pstep] at h
      | .oi _ _ :: _ => simp [pstep] at h
  | closeP =>
      match stk with
      | [] => simp [pstep] at h
      | .op txt :: rest =>
          simp only [pstep, Option.some.injEq] at h
          subst h
          match rest with
          | [] => simp [addB, tokDepth]
          | .oi _ _ :: _ => simp [addB, tokDepth]
          | .op _ :: _ => simp [addB, tokDepth]
          | .ol _ _ :: _ => simp [addB, tokDepth]
      | .ol _ _ :: _ => simp [pstep] at h
      | .oi _ _ :: _ => simp [pstep] at h
  | openL k =>
      simp only [pstep] at h
      by_cases hb : blockPos ⟨stk, acc⟩ = true
      · simp only [hb, if_true, Option.some.injEq] at h
        subst h
        simp [tokDepth]
      · simp [hb] at h
  | closeL k =>
      match stk with
      | [] => simp [pstep] at h
      | .op _ :: _ => simp [pstep] at h
      | .oi _ _ :: _ => simp [pstep] at h
      | .ol k' its :: rest =>
          simp only [pstep] at h
          by_cases hc : (decide (k = k') && !its.isEmpty) = true
          · simp only [hc, if_true, Option.some.injEq] at h
            subst h
            match rest with
            | [] => simp [addB, tokDepth]
            | .oi _ _ :: _ => simp [addB, tokDepth]
            | .op _ :: _ => simp [addB, tokDepth]
            | .ol _ _ :: _ => simp [addB, tokDepth]
          · simp [hc] at h
  | openI ik =>
      match stk with
      | [] => simp [pstep] at h
      | .op _ :: _ => simp [pstep] at h
      | .oi _ _ :: _ => simp [pstep] at h
      | .ol k its :: rest =>
          simp only [pstep] at h
          by_cases hk : kindOk k ik = true
          · simp only [hk, if_true, Option.some.injEq] at h
            subst h
            simp [tokDepth]
          · simp [hk] at h
  | closeI srt =>
      match stk with
      | [] => simp [pstep] at h
      | .op _ :: _ => simp [pstep] at h
      | .ol _ _ :: _ => simp [pstep] at h
      | [.oi ik bs] => simp [pstep] at h
      | .oi ik bs :: .op _ :: _ => simp [pstep] at h
      | .oi ik bs :: .oi _ _ :: _ => simp [pstep] at h
      | .oi ik bs :: .ol k its :: r2 =>
          simp only [pstep] at h
          by_cases hc : (decide (srt = sortOf ik) && !bs.isEmpty) = true
          · simp only [hc, if_true, Option.some.injEq] at h
            subst h
            simp [tokDepth]
          · simp [hc] at h

theorem depthSum_cons (tk : Tok) (ts : List Tok) :
    depthSum (tk :: ts) = tokDepth tk + depthSum ts := by
  simp [depthSum]

theorem runT_stklen (ts : List Tok) (st st' : PSt)
    (h : runT ts (some st) = some st') :
    (st'.stk.length : Int) = st.stk.length + depthSum ts := by
  induction ts generalizing st with
  | nil => simp [runT] at h; subst h; simp [depthSum]
  | cons tk ts ih =>
      rw [runT_cons] at h
      cases hp : pstep st tk with
      | none => rw [hp, runT_none] at h; exact absurd h (by simp)
      | some st1 =>
          rw [hp] at h
          have h1 := pstep_stklen st st1 tk hp
          have h2 := ih st1 h
          rw [depthSum_cons]
          omega

/-- An accepted stream is balanced. -/
theorem parse_balance (ts : List Tok) (d : Doc) (h : parse ts = some d) :
    depthSum ts = 0 := by
  rw [parse] at h
  cases hr : runT ts (some ⟨[], []⟩) with
  | none => rw [hr] at h; exact absurd h (by simp)
  | some st' =>
      rw [hr] at h
      have := runT_stklen ts ⟨[], []⟩ st' hr
      match st' with
      | ⟨[], acc⟩ => simp at this; omega
      | ⟨.op _ :: _, _⟩ => simp at h
      | ⟨.ol _ _ :: _, _⟩ => simp at h
      | ⟨.oi _ _ :: _, _⟩ => simp at h

mutual
theorem validB_listsNonempty (n : PMNode) (h : validB n = true) :
    listsNonempty n = true := by
  match n with
  | .para t => simp [listsNonempty]
  | .list k ns =>
      simp only [validB, Bool.and_eq_true] at h
      simp only [listsNonempty, Bool.and_eq_true]
      exact ⟨h.1, validItems_listsNonempty k ns h.2⟩
  | .item _ _ => simp [validB] at h

theorem validItems_listsNonempty (k : ListKind) (ns : List PMNode)
    (h : validItems k ns = true) : listsNonemptyL ns = true := by
  match ns with
  | [] => simp [listsNonemptyL]
  | .para _ :: _ => simp [validItems] at h
  | .list _ _ :: _ => simp [validItems] at h
  | .item ik c :: rest =>
      simp only [validItems, Bool.and_eq_true] at h
      simp only [listsNonemptyL, listsNonempty, Bool.and_eq_true]
      exact ⟨validBs_listsNonempty c h.1.2, validItems_listsNonempty k rest h.2⟩

theorem validBs_listsNonempty (bs : List PMNode) (h : validBs bs = true) :
    listsNonemptyL bs = true := by
  match bs with
  | [] => simp [listsNonemptyL]
  | b :: rest =>
      simp only [validBs, Bool.and_eq_true] at h
      simp only [listsNonemptyL, Bool.and_eq_true]
      exact ⟨validB_listsNonempty b h.1, validBs_listsNonempty rest h.2⟩
end

/-! Splice helpers. -/

theorem take_at {α : Type} (xs ys : List α) (n : Nat) (h : n = xs.length) :
    (xs ++ ys).take n = xs := by
  subst h
  simp

theorem drop_at {α : Type} (xs ys : List α) (n : Nat) (h : n = xs.length) :
    (xs ++ ys).drop n = ys := by
  subst h
  simp

theorem kindOk_sort (k : ListKind) (ik ik' : ItemKind) (h : kindOk k ik = true)
    (h' : kindOk k ik' = true) : sortOf ik = sortOf ik' := by
  cases k <;> cases ik <;> cases ik' <;> simp_all [kindOk, sortOf]

theorem validItems_last (k : ListKind) (ns : List PMNode)
    (hv : validItems k ns = true) (hne : ns ≠ []) :
    ∃ rr ikL cL, ns = rr ++ [PMNode.item ikL cL] ∧ kindOk k ikL = true := by
  induction ns with
  | nil => exact absurd rfl hne
  | cons n rest ih =>
      match rest, n with
      | [], .item ik c =>
          simp only [validItems, Bool.and_eq_true] at hv
          exact ⟨[], ik, c, by simp, hv.1.1.1⟩
      | [], .para _ => simp [validItems] at hv
      | [], .list _ _ => simp [validItems] at hv
      | m :: ms, .item ik c =>
          simp only [validItems, Bool.and_eq_true] at hv
          obtain ⟨rr, ikL, cL, heq, hk⟩ := ih hv.2 (by simp)
          exact ⟨.item ik c :: rr, ikL, cL, by simp [heq], hk⟩
      | m :: ms, .para _ => simp [validItems] at hv
      | m :: ms, .list _ _ => simp [validItems] at hv

/-! The same-type path: one `ReplaceAroundStep` wraps the covered items in
a fresh list node at the end of the previous item's content. -/

theorem stepReplaceAround_caseA (tr : Tr) (r : ItemRange)
    (ppre pc rr cL : List PMNode) (ik ikL : ItemKind)
    (hplug : tr.doc = plugB r.ctx (.list r.k r.items))
    (hpre : r.pre = ppre ++ [.item ik pc])
    (hrg : r.ranged = rr ++ [.item ikL cL])
    (hsort : sortOf ikL = sortOf ik)
    (hvalid : validDoc (rebuildA r ppre ik pc) = true) :
    stepReplaceAround tr (r.start - 1) (r.rangeEnd - 1) r.start r.rangeEnd r.k =
      some { tr with
             doc := rebuildA r ppre ik pc,
             trace := tr.trace ++
               [.step ⟨[(((r.start - 1 : Nat) : Int),
                         (r.start : Int) - ((r.start - 1 : Nat) : Int), 1),
                        ((r.rangeEnd : Int),
                         ((r.rangeEnd - 1 : Nat) : Int) - (r.rangeEnd : Int), 1)]⟩] } := by
  have hT : toksL tr.doc =
      (ctxPre r.ctx ++ Tok.openL r.k :: (toksL ppre ++ Tok.openI ik :: toksL pc))
        ++ Tok.closeI (sortOf ik) :: ((toksL rr ++ Tok.openI ikL :: toksL cL)
        ++ Tok.closeI (sortOf ikL) :: (toksL r.post ++ Tok.closeL r.k :: ctxSuf r.ctx)) := by
    rw [hplug, toksL_plugB]
    simp [toks, ItemRange.items, hpre, hrg, toksL_append, toksL, List.append_assoc]
  have hlenA : (ctxPre r.ctx ++ Tok.openL r.k ::
      (toksL ppre ++ Tok.openI ik :: toksL pc)).length
      = (ctxPre r.ctx).length + sizeL ppre + sizeL pc + 2 := by
    simp [toksL_len]
    omega
  have hstart : r.start = (ctxPre r.ctx).length + sizeL ppre + sizeL pc + 3 := by
    simp [ItemRange.start, ItemRange.listStart, hpre, sizeL_append, sizeL, size]
    omega
  have hrend : r.rangeEnd = r.start + sizeL rr + sizeL cL + 2 := by
    simp [ItemRange.rangeEnd, hrg, sizeL_append, sizeL, size]
    omega
  have e1 : (toksL tr.doc).take (r.start - 1)
      = ctxPre r.ctx ++ Tok.openL r.k :: (toksL ppre ++ Tok.openI ik :: toksL pc) := by
    rw [hT]
    exact take_at _ _ _ (by rw [hlenA]; omega)
  have e2 : ((toksL tr.doc).drop r.start).take (r.rangeEnd - r.start)
      = toksL r.ranged := by
    have hd : (toksL tr.doc).drop r.start
        = (toksL rr ++ Tok.openI ikL :: toksL cL)
          ++ Tok.closeI (sortOf ikL) :: (toksL r.post ++ Tok.closeL r.k :: ctxSuf r.ctx) := by
      rw [hT]
      rw [show (ctxPre r.ctx ++ Tok.openL r.k :: (toksL ppre ++ Tok.openI ik :: toksL pc))
            ++ Tok.closeI (sortOf ik) :: ((toksL rr ++ Tok.openI ikL :: toksL cL)
            ++ Tok.closeI (sortOf ikL) :: (toksL r.post ++ Tok.closeL r.k :: ctxSuf r.ctx))
          = ((ctxPre r.ctx ++ Tok.openL r.k :: (toksL ppre ++ Tok.openI ik :: toksL pc))
            ++ [Tok.closeI (sortOf ik)]) ++ ((toksL rr ++ Tok.openI ikL :: toksL cL)
            ++ Tok.closeI (sortOf ikL) :: (toksL r.post ++ Tok.closeL r.k :: ctxSuf r.ctx))
        from by simp [List.append_assoc]]
      exact drop_at _ _ _ (by simp [toksL_len]; omega)
    rw [hd]
    rw [show (toksL rr ++ Tok.openI ikL :: toksL cL)
          ++ Tok.closeI (sortOf ikL) :: (toksL r.post ++ Tok.closeL r.k :: ctxSuf r.ctx)
        = ((toksL rr ++ Tok.openI ikL :: toksL cL) ++ [Tok.closeI (sortOf ikL)])
          ++ (toksL r.post ++ Tok.closeL r.k :: ctxSuf r.ctx)
      from by simp [List.append_assoc]]
    rw [take_at _ _ _ (by simp [toksL_len]; omega)]
    simp [hrg, toksL_append, toksL, toks, List.append_assoc]
  have e3 : (toksL tr.doc).drop (r.rangeEnd - 1)
      = Tok.closeI (sortOf ikL) :: (toksL r.post ++ Tok.closeL r.k :: ctxSuf r.ctx) := by
    rw [hT]
    rw [show (ctxPre r.ctx ++ Tok.openL r.k :: (toksL ppre ++ Tok.openI ik :: toksL pc))
          ++ Tok.closeI (sortOf ik) :: ((toksL rr ++ Tok.openI ikL :: toksL cL)
          ++ Tok.closeI (sortOf ikL) :: (toksL r.post ++ Tok.closeL r.k :: ctxSuf r.ctx))
        = ((ctxPre r.ctx ++ Tok.openL r.k :: (toksL ppre ++ Tok.openI ik :: toksL pc))
          ++ Tok.closeI (sortOf ik) :: (toksL rr ++ Tok.openI ikL :: toksL cL))
          ++ Tok.closeI (sortOf ikL) :: (toksL r.post ++ Tok.closeL r.k :: ctxSuf r.ctx)
      from by simp [List.append_assoc]]
    exact drop_at _ _ _ (by simp [toksL_len, hlenA]; omega)
  have hsplice : (toksL tr.doc).take (r.start - 1)
      ++ (Tok.openL r.k ::
          (((toksL tr.doc).drop r.start).take (r.rangeEnd - r.start) ++ [Tok.closeL r.k]))
      ++ (toksL tr.doc).drop (r.rangeEnd - 1)
      = toksL (rebuildA r ppre ik pc) := by
    rw [e1, e2, e3]
    rw [rebuildA, toksL_plugB]
    simp [toks, toksL_append, toksL, hsort, List.append_assoc]
  simp only [stepReplaceAround, replaceToks]
  rw [hsplice, parse_toksL _ hvalid]

theorem indent_caseA (tr : Tr) (r : ItemRange) (ppre pc : List PMNode)
    (ik : ItemKind) (hv : validDoc tr.doc = true)
    (hres : calculateItemRange tr.doc tr.selFrom tr.selTo = some r)
    (hpre : r.pre = ppre ++ [.item ik pc]) :
    indentList tr =
      ({ doc := rebuildA r ppre ik pc,
         selFrom := tr.selFrom, selTo := tr.selTo,
         trace := tr.trace ++ [.step (caseAMap r.start r.rangeEnd)] }, .ret true) := by
  obtain ⟨hplug, hrne, -⟩ := calc_sound tr.doc tr.selFrom tr.selTo r hres
  have hv2 := hv
  rw [hplug] at hv2
  obtain ⟨hctx, hlist⟩ := (validDoc_plugB _ _).mp hv2
  have hitems : validItems r.k r.items = true := by
    simp only [validB, Bool.and_eq_true] at hlist
    exact hlist.2
  rw [ItemRange.items, hpre] at hitems
  rw [validItems_append, validItems_append, Bool.and_eq_true, Bool.and_eq_true]
    at hitems
  obtain ⟨⟨hppit, hrgv⟩, hpost⟩ := hitems
  rw [validItems_append, Bool.and_eq_true] at hppit
  obtain ⟨hpp, hpitem⟩ := hppit
  simp only [validItems, Bool.and_eq_true] at hpitem
  obtain ⟨⟨⟨hkik, hpcne⟩, hpcv⟩, -⟩ := hpitem
  obtain ⟨rr, ikL, cL, hrg, hkL⟩ := validItems_last r.k r.ranged hrgv hrne
  have hsort : sortOf ikL = sortOf ik := kindOk_sort r.k ikL ik hkL hkik
  have hvreb : validDoc (rebuildA r ppre ik pc) = true := by
    rw [rebuildA]
    apply (validDoc_plugB _ _).mpr
    refine ⟨hctx, ?_⟩
    simp only [validB, Bool.and_eq_true]
    constructor
    · simp
    · rw [validItems_append, Bool.and_eq_true]
      refine ⟨hpp, ?_⟩
      simp only [validItems, Bool.and_eq_true]
      refine ⟨⟨⟨hkik, ?_⟩, ?_⟩, hpost⟩
      · simp
      · rw [validBs_append, Bool.and_eq_true]
        refine ⟨hpcv, ?_⟩
        simp only [validBs, validB, Bool.and_eq_true]
        refine ⟨⟨?_, hrgv⟩, by simp [validBs]⟩
        cases hx : r.ranged with
        | nil => exact absurd hx hrne
        | cons a l => simp
  have hfpi : findPreviousItem (.list r.k r.items) r =
      some ⟨.item ik pc, .list r.k r.items,
        r.listStart + 1 + sizeL r.pre.dropLast, r.listStart, true⟩ := by
    rw [findPreviousItem, if_pos (by simp [ItemRange.startIndex, hpre])]
    rw [hpre, List.getLast?_concat]
  have hs1 : 1 ≤ r.start := by
    simp only [ItemRange.start, ItemRange.listStart]
    omega
  have he1 : 1 ≤ r.rangeEnd := by
    simp only [ItemRange.rangeEnd]
    omega
  have hstep := stepReplaceAround_caseA tr r ppre pc rr cL ik ikL hplug hpre hrg
    hsort hvreb
  have hmap : (⟨[(((r.start - 1 : Nat) : Int),
          (r.start : Int) - ((r.start - 1 : Nat) : Int), 1),
         ((r.rangeEnd : Int),
          ((r.rangeEnd - 1 : Nat) : Int) - (r.rangeEnd : Int), 1)]⟩ : StepMap)
      = caseAMap r.start r.rangeEnd := by
    simp only [caseAMap, StepMap.mk.injEq]
    have c1 : ((r.start - 1 : Nat) : Int) = (r.start : Int) - 1 := by omega
    have c2 : ((r.rangeEnd - 1 : Nat) : Int) = (r.rangeEnd : Int) - 1 := by omega
    rw [c1, c2]
    norm_num
  rw [hmap] at hstep
  simp only [indentList, hres, hfpi]
  have hsnt : sameNodeType (.list r.k r.items) (.list r.k r.items) = true := by
    simp [sameNodeType]
  simp only [hsnt, if_true, hstep]

/-! The reconstruction path: context decomposition around the previous
sibling list. -/

theorem ctxPre_decomp (c : BCtx) :
    ctxPre c = ctxParentPre c ++ toksL (sibsBefore c) := by
  cases c <;> simp [ctxPre, ctxParentPre, sibsBefore, List.append_assoc]

theorem parentStart_eq (c : BCtx) : parentStart c = (ctxParentPre c).length := by
  cases c with
  | top pre post => simp [parentStart, ctxParentPre]
  | deeper c k ipre ipost ik bpre bpost =>
      simp [parentStart, ctxParentPre, toksL_len]
      omega

theorem ctxPre_withNewPrevSib (c : BCtx) (nb : PMNode) :
    ctxPre (withNewPrevSib c nb)
      = ctxParentPre c ++ (toksL (sibsBefore c).dropLast ++ toks nb) := by
  cases c with
  | top pre post =>
      simp [withNewPrevSib, ctxPre, ctxParentPre, sibsBefore, toksL_append, toksL]
  | deeper c k ipre ipost ik bpre bpost =>
      simp [withNewPrevSib, ctxPre, ctxParentPre, sibsBefore, toksL_append, toksL,
        List.append_assoc]

theorem ctxSuf_withNewPrevSib (c : BCtx) (nb : PMNode) :
    ctxSuf (withNewPrevSib c nb) = ctxSuf c := by
  cases c <;> simp [withNewPrevSib, ctxSuf]

theorem sibsBefore_withNewPrevSib (c : BCtx) (nb : PMNode) :
    sibsBefore (withNewPrevSib c nb) = (sibsBefore c).dropLast ++ [nb] := by
  cases c <;> simp [withNewPrevSib, sibsBefore]

theorem sibsBefore_valid (c : BCtx) (h : ctxOk c = true) :
    validBs (sibsBefore c) = true := by
  cases c with
  | top pre post =>
      simp only [ctxOk, Bool.and_eq_true] at h
      exact h.1
  | deeper c k ipre ipost ik bpre bpost =>
      simp only [ctxOk, Bool.and_eq_true] at h
      exact h.1.2

theorem validBs_dropLast (bs : List PMNode) (h : validBs bs = true) :
    validBs bs.dropLast = true := by
  rw [validBs_eq_all] at h ⊢
  rw [List.all_eq_true] at h ⊢
  intro x hx
  exact h x ((List.dropLast_sublist bs).subset hx)

theorem ctxOk_withNewPrevSib (c : BCtx) (nb : PMNode) (h : ctxOk c = true)
    (hnb : validB nb = true) : ctxOk (withNewPrevSib c nb) = true := by
  cases c with
  | top pre post =>
      simp only [ctxOk, Bool.and_eq_true] at h
      simp only [withNewPrevSib, ctxOk, Bool.and_eq_true, validBs_append]
      exact ⟨⟨validBs_dropLast pre h.1, by simp [validBs, hnb]⟩, h.2⟩
  | deeper c k ipre ipost ik bpre bpost =>
      simp only [ctxOk, Bool.and_eq_true] at h
      obtain ⟨⟨⟨⟨⟨h1, h2⟩, h3⟩, h4⟩, h5⟩, h6⟩ := h
      simp only [withNewPrevSib, ctxOk, Bool.and_eq_true, validBs_append]
      exact ⟨⟨⟨⟨⟨h1, h2⟩, h3⟩, h4⟩, ⟨validBs_dropLast bpre h5, by simp [validBs, hnb]⟩⟩, h6⟩

theorem validDoc_plug0_of (c : BCtx) (hctx : ctxOk c = true)
    (hsib : sibsBefore c ≠ []) : validDoc (plug0 c) = true := by
  cases c with
  | top pre post =>
      simp only [ctxOk, Bool.and_eq_true] at hctx
      simp only [sibsBefore] at hsib
      simp only [plug0, validDoc, validBs_append, Bool.and_eq_true]
      refine ⟨?_, hctx.1, hctx.2⟩
      cases pre with
      | nil => exact absurd rfl hsib
      | cons a l => simp
  | deeper c k ipre ipost ik bpre bpost =>
      simp only [ctxOk, Bool.and_eq_true] at hctx
      obtain ⟨⟨⟨⟨⟨h1, h2⟩, h3⟩, h4⟩, h5⟩, h6⟩ := hctx
      simp only [sibsBefore] at hsib
      simp only [plug0]
      apply (validDoc_plugB _ _).mpr
      refine ⟨h1, ?_⟩
      simp only [validB, Bool.and_eq_true]
      refine ⟨by simp, ?_⟩
      rw [validItems_append, Bool.and_eq_true]
      refine ⟨h3, ?_⟩
      simp only [validItems, Bool.and_eq_true, validBs_append]
      refine ⟨⟨⟨h2, ?_⟩, h5, h6⟩, h4⟩
      cases bpre with
      | nil => exact absurd rfl hsib
      | cons a l => simp

theorem deleteRange_caseB (tr : Tr) (r : ItemRange)
    (hplug : tr.doc = plugB r.ctx (.list r.k r.items))
    (hpre0 : r.pre = [])
    (hctx : ctxOk r.ctx = true)
    (hpostv : validItems r.k r.post = true)
    (hsib : sibsBefore r.ctx ≠ []) :
    deleteRangeModel tr r =
      some { tr with
             doc := if r.post.isEmpty then plug0 r.ctx
                    else plugB r.ctx (.list r.k r.post),
             trace := tr.trace ++
               [.step (delMap (if r.post.isEmpty then r.start - 1 else r.start)
                  (if r.post.isEmpty then r.rangeEnd + 1 else r.rangeEnd))] } := by
  have hT : toksL tr.doc =
      ctxPre r.ctx ++ Tok.openL r.k :: (toksL r.ranged
        ++ (toksL r.post ++ Tok.closeL r.k :: ctxSuf r.ctx)) := by
    rw [hplug, toksL_plugB]
    simp [toks, ItemRange.items, hpre0, toksL_append, toksL, List.append_assoc]
  have hstart : r.start = (ctxPre r.ctx).length + 1 := by
    simp [ItemRange.start, ItemRange.listStart, hpre0, sizeL]
  have hrend : r.rangeEnd = (ctxPre r.ctx).length + 1 + sizeL r.ranged := by
    simp [ItemRange.rangeEnd, hstart]
  by_cases hpe : r.post.isEmpty
  · have hpnil : r.post = [] := by
      cases hp : r.post with
      | nil => rfl
      | cons a l => rw [hp] at hpe; simp at hpe
    have e1 : (toksL tr.doc).take (r.start - 1) = ctxPre r.ctx := by
      rw [hT]
      exact take_at _ _ _ (by omega)
    have e2 : (toksL tr.doc).drop (r.rangeEnd + 1) = ctxSuf r.ctx := by
      rw [hT]
      rw [show ctxPre r.ctx ++ Tok.openL r.k :: (toksL r.ranged
            ++ (toksL r.post ++ Tok.closeL r.k :: ctxSuf r.ctx))
          = (ctxPre r.ctx ++ Tok.openL r.k :: (toksL r.ranged
            ++ (toksL r.post ++ [Tok.closeL r.k]))) ++ ctxSuf r.ctx
        from by simp [List.append_assoc]]
      exact drop_at _ _ _ (by simp [toksL_len, hpnil, sizeL]; omega)
    have hval : validDoc (plug0 r.ctx) = true := validDoc_plug0_of r.ctx hctx hsib
    simp only [deleteRangeModel, hpre0, hpe, List.isEmpty_nil, Bool.and_self,
      if_true, replaceToks]
    rw [e1, e2]
    rw [show ctxPre r.ctx ++ [] ++ ctxSuf r.ctx = toksL (plug0 r.ctx)
      from by rw [toksL_plug0]; simp]
    rw [parse_toksL _ hval]
    simp [hpe, delMap]
  · have hpne : r.post ≠ [] := by
      cases hp : r.post with
      | nil => rw [hp] at hpe; simp at hpe
      | cons a l => simp
    have e1 : (toksL tr.doc).take r.start = ctxPre r.ctx ++ [Tok.openL r.k] := by
      rw [hT]
      rw [show ctxPre r.ctx ++ Tok.openL r.k :: (toksL r.ranged
            ++ (toksL r.post ++ Tok.closeL r.k :: ctxSuf r.ctx))
          = (ctxPre r.ctx ++ [Tok.openL r.k]) ++ (toksL r.ranged
            ++ (toksL r.post ++ Tok.closeL r.k :: ctxSuf r.ctx))
        from by simp [List.append_assoc]]
      exact take_at _ _ _ (by simp; omega)
    have e2 : (toksL tr.doc).drop r.rangeEnd
        = toksL r.post ++ Tok.closeL r.k :: ctxSuf r.ctx := by
      rw [hT]
      rw [show ctxPre r.ctx ++ Tok.openL r.k :: (toksL r.ranged
            ++ (toksL r.post ++ Tok.closeL r.k :: ctxSuf r.ctx))
          = (ctxPre r.ctx ++ Tok.openL r.k :: toksL r.ranged)
            ++ (toksL r.post ++ Tok.closeL r.k :: ctxSuf r.ctx)
        from by simp [List.append_assoc]]
      exact drop_at _ _ _ (by simp [toksL_len]; omega)
    have hval : validDoc (plugB r.ctx (.list r.k r.post)) = true := by
      apply (validDoc_plugB _ _).mpr
      refine ⟨hctx, ?_⟩
      simp only [validB, Bool.and_eq_true]
      refine ⟨?_, hpostv⟩
      cases hp : r.post with
      | nil => exact absurd hp hpne
      | cons a l => simp
    have hcond : (r.pre.isEmpty && r.post.isEmpty) = false := by
      simp [hpre0, hpe]
    simp only [deleteRangeModel, replaceToks, hcond, Bool.false_eq_true, if_false]
    rw [e1, e2]
    rw [show (ctxPre r.ctx ++ [Tok.openL r.k]) ++ []
          ++ (toksL r.post ++ Tok.closeL r.k :: ctxSuf r.ctx)
        = toksL (plugB r.ctx (.list r.k r.post))
      from by rw [toksL_plugB]; simp [toks, List.append_assoc]]
    rw [parse_toksL _ hval]
    simp [hpe, delMap]

theorem replaceRange_prevItem (tr1 : Tr) (c : BCtx) (rest1 : List Tok)
    (sb0 pj pc' newC : List PMNode) (k' : ListKind) (ik' : ItemKind) (dres : Doc)
    (hT : toksL tr1.doc = ctxPre c ++ rest1)
    (hsb : sibsBefore c = sb0 ++ [.list k' (pj ++ [.item ik' pc'])])
    (hres : parse (ctxPre (withNewPrevSib c
        (.list k' (pj ++ [.item ik' newC]))) ++ rest1) = some dres) :
    replaceRangeWithModel tr1 ((ctxParentPre c).length + sizeL sb0 + 1 + sizeL pj)
        ((ctxParentPre c).length + sizeL sb0 + 1 + sizeL pj + (sizeL pc' + 2))
        (.item ik' newC)
      = some { tr1 with
               doc := dres,
               trace := tr1.trace ++
                 [.step (insMap ((ctxParentPre c).length + sizeL sb0 + 1 + sizeL pj)
                    ((ctxParentPre c).length + sizeL sb0 + 1 + sizeL pj
                      + (sizeL pc' + 2))
                    (sizeL newC + 2))] } := by
  have hT2 : toksL tr1.doc =
      (ctxParentPre c ++ (toksL sb0 ++ Tok.openL k' :: toksL pj))
        ++ (Tok.openI ik' :: (toksL pc' ++ [Tok.closeI (sortOf ik')]))
        ++ (Tok.closeL k' :: rest1) := by
    rw [hT, ctxPre_decomp, hsb]
    simp [toksL_append, toksL, toks, List.append_assoc]
  have e1 : (toksL tr1.doc).take
      ((ctxParentPre c).length + sizeL sb0 + 1 + sizeL pj)
      = ctxParentPre c ++ (toksL sb0 ++ Tok.openL k' :: toksL pj) := by
    rw [hT2, List.append_assoc]
    exact take_at _ _ _ (by simp [toksL_len]; omega)
  have e2 : (toksL tr1.doc).drop
      ((ctxParentPre c).length + sizeL sb0 + 1 + sizeL pj + (sizeL pc' + 2))
      = Tok.closeL k' :: rest1 := by
    rw [hT2]
    rw [show (ctxParentPre c ++ (toksL sb0 ++ Tok.openL k' :: toksL pj))
          ++ (Tok.openI ik' :: (toksL pc' ++ [Tok.closeI (sortOf ik')]))
          ++ (Tok.closeL k' :: rest1)
        = ((ctxParentPre c ++ (toksL sb0 ++ Tok.openL k' :: toksL pj))
          ++ (Tok.openI ik' :: (toksL pc' ++ [Tok.closeI (sortOf ik')])))
          ++ (Tok.closeL k' :: rest1)
      from by simp [List.append_assoc]]
    exact drop_at _ _ _ (by simp [toksL_len]; omega)
  have hspl : (ctxParentPre c ++ (toksL sb0 ++ Tok.openL k' :: toksL pj))
      ++ toks (.item ik' newC) ++ (Tok.closeL k' :: rest1)
      = ctxPre (withNewPrevSib c (.list k' (pj ++ [.item ik' newC]))) ++ rest1 := by
    rw [ctxPre_withNewPrevSib, hsb]
    simp [toks, toksL_append, toksL, List.append_assoc]
  simp only [replaceRangeWithModel, replaceToks]
  rw [e1, e2, hspl, hres]
  simp [size, insMap]

theorem findDeepBlock_lt (bs : List PMNode) (off j : Nat)
    (h : findDeepBlock bs off = some j) : j < bs.length := by
  induction bs generalizing off j with
  | nil => simp [findDeepBlock] at h
  | cons b rest ih =>
      rw [findDeepBlock] at h
      by_cases h1 : off < 1
      · rw [if_pos h1] at h
        exact absurd h (by simp)
      · rw [if_neg h1] at h
        by_cases h2 : off < size b
        · rw [if_pos h2] at h
          simp only [Option.some.injEq] at h
          subst h
          simp
        · rw [if_neg h2] at h
          rw [Option.map_eq_some'] at h
          obtain ⟨j2, hj2, hjj⟩ := h
          have := ih _ _ hj2
          subst hjj
          simp only [List.length_cons]
          omega

theorem validBs_sublist (xs ys : List PMNode) (hs : List.Sublist xs ys)
    (h : validBs ys = true) : validBs xs = true := by
  rw [validBs_eq_all] at h ⊢
  rw [List.all_eq_true] at h ⊢
  intro x hx
  exact h x (hs.subset hx)

theorem sliceSelectedItems_spec (r : ItemRange) (t : Nat)
    (hv : validItems r.k r.ranged = true) (hne : r.ranged ≠ []) :
    validItems r.k (sliceSelectedItems r t).1 = true ∧
      (sliceSelectedItems r t).1 ≠ [] ∧
      validBs (sliceSelectedItems r t).2 = true := by
  obtain ⟨rr, ikL, cL, hrg, hkL⟩ := validItems_last r.k r.ranged hv hne
  have hv2 := hv
  rw [hrg, validItems_append, Bool.and_eq_true] at hv2
  obtain ⟨hrr, hone⟩ := hv2
  simp only [validItems, Bool.and_eq_true] at hone
  obtain ⟨⟨⟨-, hcne⟩, hcv⟩, -⟩ := hone
  simp only [sliceSelectedItems, hrg, List.getLast?_concat, List.dropLast_concat]
  cases hj : findDeepBlock cL (t - (r.start + sizeL rr + 1)) with
  | none =>
      refine ⟨?_, by simp, by simp [validBs]⟩
      rw [validItems_append, Bool.and_eq_true]
      refine ⟨hrr, ?_⟩
      simp only [validItems, Bool.and_eq_true]
      exact ⟨⟨⟨hkL, hcne⟩, hcv⟩, trivial⟩
  | some j =>
      have hjlt := findDeepBlock_lt cL _ j hj
      have hcLne : cL ≠ [] := by
        intro hc
        rw [hc] at hjlt
        simp at hjlt
      refine ⟨?_, by simp, validBs_sublist _ _ (List.drop_sublist _ _) hcv⟩
      rw [validItems_append, Bool.and_eq_true]
      refine ⟨hrr, ?_⟩
      simp only [validItems, Bool.and_eq_true]
      refine ⟨⟨⟨hkL, ?_⟩, validBs_sublist _ _ (List.take_sublist _ _) hcv⟩, trivial⟩
      cases cL with
      | nil => exact absurd rfl hcLne
      | cons a l => simp

theorem indent_caseB (tr : Tr) (r : ItemRange)
    (sb0 pj pc2 selCont unsel : List PMNode) (k2 : ListKind) (ik2 : ItemKind)
    (hv : validDoc tr.doc = true)
    (hres : calculateItemRange tr.doc tr.selFrom tr.selTo = some r)
    (hpre0 : r.pre = [])
    (hsb : sibsBefore r.ctx = sb0 ++ [.list k2 (pj ++ [.item ik2 pc2])])
    (hk : ¬ k2 = r.k)
    (hslice : sliceSelectedItems r tr.selTo = (selCont, unsel)) :
    indentList tr =
      ({ doc := rebuildB r k2 pj ik2 pc2 selCont unsel,
         selFrom := tr.selFrom - 2, selTo := tr.selTo - 2,
         trace := tr.trace ++
           [.step (delMap (if r.post.isEmpty then r.start - 1 else r.start)
              (if r.post.isEmpty then r.rangeEnd + 1 else r.rangeEnd)),
            .checkedNode (.item ik2 (pc2 ++ PMNode.list r.k selCont :: unsel)) true,
            .step (insMap ((ctxParentPre r.ctx).length + sizeL sb0 + 1 + sizeL pj)
               ((ctxParentPre r.ctx).length + sizeL sb0 + 1 + sizeL pj
                 + (sizeL pc2 + 2))
               (sizeL (pc2 ++ PMNode.list r.k selCont :: unsel) + 2))] },
       .ret true) := by
  obtain ⟨hplug, hrne, -⟩ := calc_sound tr.doc tr.selFrom tr.selTo r hres
  have hv2 := hv
  rw [hplug] at hv2
  obtain ⟨hctx, hlist⟩ := (validDoc_plugB _ _).mp hv2
  have hitems : validItems r.k r.items = true := by
    simp only [validB, Bool.and_eq_true] at hlist
    exact hlist.2
  have hitems2 : validItems r.k (r.ranged ++ r.post) = true := by
    rw [ItemRange.items, hpre0] at hitems
    simpa using hitems
  rw [validItems_append, Bool.and_eq_true] at hitems2
  obtain ⟨hrgv, hpostv⟩ := hitems2
  have hsbv : validBs (sibsBefore r.ctx) = true := sibsBefore_valid r.ctx hctx
  rw [hsb, validBs_append, Bool.and_eq_true] at hsbv
  have hpl : validB (.list k2 (pj ++ [.item ik2 pc2])) = true := by
    have h2 := hsbv.2
    simp only [validBs, Bool.and_eq_true] at h2
    exact h2.1
  simp only [validB, Bool.and_eq_true] at hpl
  have hplv := hpl.2
  rw [validItems_append, Bool.and_eq_true] at hplv
  obtain ⟨hpjv, hone⟩ := hplv
  simp only [validItems, Bool.and_eq_true] at hone
  obtain ⟨⟨⟨hkik, hpcne⟩, hpcv⟩, -⟩ := hone
  have hsl := sliceSelectedItems_spec r tr.selTo hrgv hrne
  rw [hslice] at hsl
  obtain ⟨hselv, hselne, hunselv⟩ := hsl
  have hselne2 : selCont.isEmpty = false := by
    cases hc : selCont with
    | nil => exact absurd hc hselne
    | cons a l => rfl
  have hnewCv : validBs (pc2 ++ PMNode.list r.k selCont :: unsel) = true := by
    rw [validBs_append, Bool.and_eq_true]
    refine ⟨hpcv, ?_⟩
    simp only [validBs, validB, Bool.and_eq_true]
    exact ⟨⟨by simp [hselne2], hselv⟩, hunselv⟩
  have hnewCne : ((pc2 ++ PMNode.list r.k selCont :: unsel).isEmpty) = false := by
    cases pc2 <;> rfl
  have hok : checkNodeValid (.item ik2 (pc2 ++ PMNode.list r.k selCont :: unsel))
      = true := by
    simp only [checkNodeValid, Bool.and_eq_true]
    exact ⟨by simp [hnewCne], hnewCv⟩
  have hnp : validB (.list k2
      (pj ++ [.item ik2 (pc2 ++ PMNode.list r.k selCont :: unsel)])) = true := by
    simp only [validB, Bool.and_eq_true]
    refine ⟨by simp, ?_⟩
    rw [validItems_append, Bool.and_eq_true]
    refine ⟨hpjv, ?_⟩
    simp only [validItems, Bool.and_eq_true]
    exact ⟨⟨⟨hkik, by simp [hnewCne]⟩, hnewCv⟩, trivial⟩
  have hctx2 := ctxOk_withNewPrevSib r.ctx _ hctx hnp
  have hsib2 : sibsBefore (withNewPrevSib r.ctx (.list k2
      (pj ++ [.item ik2 (pc2 ++ PMNode.list r.k selCont :: unsel)]))) ≠ [] := by
    rw [sibsBefore_withNewPrevSib]
    simp
  have hfpi : findPreviousItem (.list r.k r.items) r =
      some ⟨.item ik2 pc2, .list k2 (pj ++ [.item ik2 pc2]),
        (ctxParentPre r.ctx).length + sizeL sb0 + 1 + sizeL pj + 1,
        (ctxParentPre r.ctx).length + 1 + sizeL sb0, false⟩ := by
    rw [findPreviousItem]
    rw [if_neg (by simp [ItemRange.startIndex, hpre0])]
    simp only [hsb, List.length_append, List.length_cons, List.length_nil,
      List.getLast?_concat, List.dropLast_concat, parentStart_eq, ge_iff_le]
    rw [if_pos (by omega)]
    simp only [isListNode, if_true, List.getLast?_concat, isListItemNode,
      Option.some.injEq, FPIResult.mk.injEq]
    refine ⟨trivial, trivial, ?_, trivial, trivial⟩
    simp only [size, sizeL_append, sizeL]
    omega
  have hsnt : sameNodeType (.list k2 (pj ++ [.item ik2 pc2]))
      (.list r.k r.items) = false := by
    simp [sameNodeType, hk]
  have hsibne : sibsBefore r.ctx ≠ [] := by
    rw [hsb]
    simp
  have hdel := deleteRange_caseB tr r hplug hpre0 hctx hpostv hsibne
  by_cases hpe : r.post.isEmpty = true
  · have hreb : rebuildB r k2 pj ik2 pc2 selCont unsel
        = plug0 (withNewPrevSib r.ctx (.list k2
            (pj ++ [.item ik2 (pc2 ++ PMNode.list r.k selCont :: unsel)]))) := by
      simp [rebuildB, hpe]
    have hvres : validDoc (plug0 (withNewPrevSib r.ctx (.list k2
        (pj ++ [.item ik2 (pc2 ++ PMNode.list r.k selCont :: unsel)])))) = true :=
      validDoc_plug0_of _ hctx2 hsib2
    have hparse : parse (ctxPre (withNewPrevSib r.ctx (.list k2
          (pj ++ [.item ik2 (pc2 ++ PMNode.list r.k selCont :: unsel)])))
          ++ ctxSuf r.ctx)
        = some (rebuildB r k2 pj ik2 pc2 selCont unsel) := by
      rw [hreb, ← ctxSuf_withNewPrevSib r.ctx (.list k2
        (pj ++ [.item ik2 (pc2 ++ PMNode.list r.k selCont :: unsel)])),
        ← toksL_plug0]
      exact parse_toksL _ hvres
    have hrpl := replaceRange_prevItem
      { doc := plug0 r.ctx, selFrom := tr.selFrom, selTo := tr.selTo,
        trace := tr.trace ++
          [.step (delMap (r.start - 1) (r.rangeEnd + 1)),
           .checkedNode (.item ik2 (pc2 ++ PMNode.list r.k selCont :: unsel)) true] }
      r.ctx (ctxSuf r.ctx) sb0 pj pc2 (pc2 ++ PMNode.list r.k selCont :: unsel)
      k2 ik2 (rebuildB r k2 pj ik2 pc2 selCont unsel)
      (by rw [toksL_plug0]) hsb hparse
    simp only [indentList, hres, hfpi, hslice, hsnt, Bool.false_eq_true, if_false,
      hdel, hpe, if_true, Option.some.injEq, nodeContent, copyNode,
      List.append_assoc, List.singleton_append, Nat.add_sub_cancel, hok]
    rw [show (ctxParentPre r.ctx).length + sizeL sb0 + 1 + sizeL pj + 1
          + size (PMNode.item ik2 pc2) - 2 + 1
        = (ctxParentPre r.ctx).length + sizeL sb0 + 1 + sizeL pj + (sizeL pc2 + 2)
      from by simp only [size]; omega]
    rw [hrpl]
    simp
  · have hpe2 : r.post.isEmpty = false := by
      cases h : r.post.isEmpty with
      | false => rfl
      | true => exact absurd h hpe
    have hpostne : r.post ≠ [] := by
      cases hp : r.post with
      | nil => rw [hp] at hpe2; simp at hpe2
      | cons a l => simp
    have hvlist : validB (.list r.k r.post) = true := by
      simp only [validB, Bool.and_eq_true]
      refine ⟨?_, hpostv⟩
      cases hp : r.post with
      | nil => exact absurd hp hpostne
      | cons a l => simp
    have hreb : rebuildB r k2 pj ik2 pc2 selCont unsel
        = plugB (withNewPrevSib r.ctx (.list k2
            (pj ++ [.item ik2 (pc2 ++ PMNode.list r.k selCont :: unsel)])))
            (.list r.k r.post) := by
      simp [rebuildB, hpe2]
    have hparse : parse (ctxPre (withNewPrevSib r.ctx (.list k2
          (pj ++ [.item ik2 (pc2 ++ PMNode.list r.k selCont :: unsel)])))
          ++ (Tok.openL r.k :: (toksL r.post ++ Tok.closeL r.k :: ctxSuf r.ctx)))
        = some (rebuildB r k2 pj ik2 pc2 selCont unsel) := by
      rw [hreb]
      rw [show ctxPre (withNewPrevSib r.ctx (.list k2
            (pj ++ [.item ik2 (pc2 ++ PMNode.list r.k selCont :: unsel)])))
          ++ (Tok.openL r.k :: (toksL r.post ++ Tok.closeL r.k :: ctxSuf r.ctx))
          = toksL (plugB (withNewPrevSib r.ctx (.list k2
              (pj ++ [.item ik2 (pc2 ++ PMNode.list r.k selCont :: unsel)])))
              (.list r.k r.post))
        from by
          rw [toksL_plugB, ctxSuf_withNewPrevSib]
          simp [toks, List.append_assoc]]
      exact parse_toksL _ ((validDoc_plugB _ _).mpr ⟨hctx2, hvlist⟩)
    have hrpl := replaceRange_prevItem
      { doc := plugB r.ctx (.list r.k r.post), selFrom := tr.selFrom,
        selTo := tr.selTo,
        trace := tr.trace ++
          [.step (delMap r.start r.rangeEnd),
           .checkedNode (.item ik2 (pc2 ++ PMNode.list r.k selCont :: unsel)) true] }
      r.ctx (Tok.openL r.k :: (toksL r.post ++ Tok.closeL r.k :: ctxSuf r.ctx))
      sb0 pj pc2 (pc2 ++ PMNode.list r.k selCont :: unsel)
      k2 ik2 (rebuildB r k2 pj ik2 pc2 selCont unsel)
      (by rw [toksL_plugB]; simp [toks, List.append_assoc]) hsb hparse
    simp only [indentList, hres, hfpi, hslice, hsnt, Bool.false_eq_true, if_false,
      hdel, hpe2, Option.some.injEq, nodeContent, copyNode,
      List.append_assoc, List.singleton_append, Nat.add_sub_cancel, hok]
    rw [show (ctxParentPre r.ctx).length + sizeL sb0 + 1 + sizeL pj + 1
          + size (PMNode.item ik2 pc2) - 2 + 1
        = (ctxParentPre r.ctx).length + sizeL sb0 + 1 + sizeL pj + (sizeL pc2 + 2)
      from by simp only [size]; omega]
    rw [hrpl]
    simp

theorem pstep_consumed (st st2 : PSt) (tk : Tok) (hi : stInv st = true)
    (h : pstep st tk = some st2) : consumed st2 = consumed st ++ [tk] := by
  obtain ⟨stk, acc⟩ := st
  simp only [stInv, Bool.and_eq_true] at hi
  obtain ⟨hstk, hacc⟩ := hi
  cases tk with
  | openP =>
      simp only [pstep, blockPos_eq_blockShape] at h
      by_cases hb : blockShape stk = true
      · simp only [hb, if_true, Option.some.injEq] at h
        subst h
        simp [consumed, stkToks, openedToks, toksL]
      · simp [hb] at h
  | chr c =>
      match stk with
      | [] => simp [pstep] at h
      | .op txt :: rest =>
          simp only [pstep, Option.some.injEq] at h
          subst h
          simp [consumed, stkToks, openedToks, List.append_assoc]
      | .ol _ _ :: _ => simp [pstep] at h
      | .oi _ _ :: _ => simp [pstep] at h
  | closeP =>
      match stk with
      | [] => simp [pstep] at h
      | .op txt :: rest =>
          simp only [pstep, Option.some.injEq] at h
          simp only [stkInv, Bool.and_eq_true] at hstk
          obtain ⟨hbs, hrest⟩ := hstk
          match rest with
          | [] =>
              subst h
              simp [addB, consumed, stkToks, openedToks, toks, toksL,
                toksL_append, List.append_assoc]
          | .oi ik bs :: r2 =>
              subst h
              simp [addB, consumed, stkToks, openedToks, toks, toksL,
                toksL_append, List.append_assoc]
          | .op _ :: _ => simp [blockShape] at hbs
          | .ol _ _ :: _ => simp [blockShape] at hbs
      | .ol _ _ :: _ => simp [pstep] at h
      | .oi _ _ :: _ => simp [pstep] at h
  | openL k =>
      simp only [pstep, blockPos_eq_blockShape] at h
      by_cases hb : blockShape stk = true
      · simp only [hb, if_true, Option.some.injEq] at h
        subst h
        simp [consumed, stkToks, openedToks, toksL]
      · simp [hb] at h
  | closeL k =>
      match stk with
      | [] => simp [pstep] at h
      | .op _ :: _ => simp [pstep] at h
      | .oi _ _ :: _ => simp [pstep] at h
      | .ol k2 its :: rest =>
          simp only [pstep] at h
          by_cases hc : (decide (k = k2) && !its.isEmpty) = true
          · rw [if_pos hc] at h
            rw [Bool.and_eq_true, decide_eq_true_eq] at hc
            obtain ⟨hkk, hne⟩ := hc
            subst hkk
            simp only [Option.some.injEq] at h
            simp only [stkInv, Bool.and_eq_true] at hstk
            obtain ⟨⟨hbs, hall⟩, hrest⟩ := hstk
            match rest with
            | [] =>
                subst h
                simp [addB, consumed, stkToks, openedToks, toks, toksL,
                  toksL_append, List.append_assoc]
            | .oi ik bs :: r2 =>
                subst h
                simp [addB, consumed, stkToks, openedToks, toks, toksL,
                  toksL_append, List.append_assoc]
            | .op _ :: _ => simp [blockShape] at hbs
            | .ol _ _ :: _ => simp [blockShape] at hbs
          · simp only [hc, Bool.false_eq_true, if_false] at h
            exact absurd h (by simp)
  | openI ik =>
      match stk with
      | [] => simp [pstep] at h
      | .op _ :: _ => simp [pstep] at h
      | .oi _ _ :: _ => simp [pstep] at h
      | .ol k its :: rest =>
          simp only [pstep] at h
          by_cases hk : kindOk k ik = true
          · rw [if_pos hk] at h
            simp only [Option.some.injEq] at h
            subst h
            simp [consumed, stkToks, openedToks, toksL, List.append_assoc]
          · simp [hk] at h
  | closeI sI =>
      match stk with
      | [] => simp [pstep] at h
      | .op _ :: _ => simp [pstep] at h
      | .ol _ _ :: _ => simp [pstep] at h
      | .oi ik bs :: [] => simp [pstep] at h
      | .oi ik bs :: .op _ :: _ => simp [pstep] at h
      | .oi ik bs :: .oi _ _ :: _ => simp [pstep] at h
      | .oi ik bs :: .ol k its :: rest =>
          simp only [pstep] at h
          by_cases hc : (decide (sI = sortOf ik) && !bs.isEmpty) = true
          · rw [if_pos hc] at h
            rw [Bool.and_eq_true, decide_eq_true_eq] at hc
            obtain ⟨hss, hne⟩ := hc
            subst hss
            simp only [Option.some.injEq] at h
            subst h
            simp [consumed, stkToks, openedToks, toks, toksL,
              toksL_append, List.append_assoc]
          · simp only [hc, Bool.false_eq_true, if_false] at h
            exact absurd h (by simp)

theorem runT_consumed (ts : List Tok) (st st2 : PSt) (hi : stInv st = true)
    (h : runT ts (some st) = some st2) : consumed st2 = consumed st ++ ts := by
  induction ts generalizing st with
  | nil =>
      simp only [runT, List.foldl_nil, Option.some.injEq] at h
      subst h
      simp
  | cons t rest ih =>
      rw [runT_cons] at h
      cases hp : pstep st t with
      | none =>
          rw [hp, runT_none] at h
          exact absurd h (by simp)
      | some st1 =>
          rw [hp] at h
          have h1 := pstep_consumed st st1 t hi hp
          have hi1 := pstep_inv st st1 t hi hp
          have h2 := ih st1 hi1 h
          rw [h2, h1]
          simp

theorem parse_toks (ts : List Tok) (d : Doc) (h : parse ts = some d) :
    toksL d = ts := by
  rw [parse] at h
  cases hr : runT ts (some ⟨[], []⟩) with
  | none =>
      rw [hr] at h
      exact absurd h (by simp)
  | some st =>
      obtain ⟨stk, acc⟩ := st
      rw [hr] at h
      match stk with
      | [] =>
          by_cases he : acc.isEmpty = true
          · simp [he] at h
          · simp only [he, Bool.false_eq_true, if_false, Option.some.injEq] at h
            have hc := runT_consumed ts ⟨[], []⟩ ⟨[], acc⟩
              (by simp [stInv, stkInv]) hr
            simp only [consumed, stkToks, List.reverse_nil, toksL,
              List.append_nil, List.nil_append] at hc
            rw [h] at hc
            exact hc
      | _ :: _ => exact absurd h (by simp)

theorem indent_success_shape (tr tr2 : Tr)
    (h : indentList tr = (tr2, Outcome.ret true)) :
    validDoc tr2.doc = true ∧
    ((∃ rs re : Nat, rs ≤ re ∧
        tr2.trace = tr.trace ++
          [.step ⟨[(((rs - 1 : Nat) : Int), (rs : Int) - ((rs - 1 : Nat) : Int), 1),
                   ((re : Int), ((re - 1 : Nat) : Int) - (re : Int), 1)]⟩]) ∨
     (∃ (a1 b1 a2 b2 n2 : Nat) (nk : PMNode), a1 ≤ b1 ∧ a2 ≤ b2 ∧
        tr2.trace = tr.trace ++
          [.step ⟨[((a1 : Int), (b1 : Int) - (a1 : Int), 0)]⟩,
           .checkedNode nk true,
           .step ⟨[((a2 : Int), (b2 : Int) - (a2 : Int), (n2 : Int))]⟩])) := by
  rw [indentList] at h
  cases hcalc : calculateItemRange tr.doc tr.selFrom tr.selTo with
  | none =>
      rw [hcalc] at h
      simp at h
  | some r =>
  rw [hcalc] at h
  dsimp only at h
  cases hfpi : findPreviousItem (.list r.k r.items) r with
  | none =>
      rw [hfpi] at h
      simp at h
  | some fpi =>
  rw [hfpi] at h
  dsimp only at h
  by_cases hsnt : sameNodeType fpi.previousList (.list r.k r.items) = true
  · rw [if_pos hsnt] at h
    cases hsra : stepReplaceAround tr (r.start - 1) (r.rangeEnd - 1) r.start
        r.rangeEnd r.k with
    | none =>
        rw [hsra] at h
        simp at h
    | some tr1 =>
    rw [hsra] at h
    dsimp only at h
    rw [stepReplaceAround] at hsra
    split at hsra
    · rename_i d1 hrt
      simp only [Option.some.injEq] at hsra
      rw [replaceToks] at hrt
      have hvd := parse_valid _ _ hrt
      have hle : r.start ≤ r.rangeEnd := by
        simp only [ItemRange.rangeEnd]
        exact Nat.le_add_right _ _
      subst hsra
      split at h <;>
      · injection h with hA hB
        subst hA
        exact ⟨hvd, Or.inl ⟨r.start, r.rangeEnd, hle, by simp⟩⟩
    · exact absurd hsra (by simp)
  · rw [if_neg hsnt] at h
    cases hdel : deleteRangeModel tr r with
    | none =>
        rw [hdel] at h
        simp at h
    | some tr1 =>
    rw [hdel] at h
    dsimp only at h
    set np := copyNode fpi.previousItem
      (nodeContent fpi.previousItem ++
        [copyNode (PMNode.list r.k r.items) (sliceSelectedItems r tr.selTo).1] ++
          (sliceSelectedItems r tr.selTo).2) with hnp
    by_cases hok : checkNodeValid np = true
    · rw [if_pos hok] at h
      rw [hok] at h
      cases hrpl : replaceRangeWithModel
          { doc := tr1.doc, selFrom := tr1.selFrom, selTo := tr1.selTo,
            trace := tr1.trace ++ [Ev.checkedNode np true] }
          (fpi.previousItemStart - 1)
          (fpi.previousItemStart + size fpi.previousItem - 2 + 1) np with
      | none =>
          rw [hrpl] at h
          simp at h
      | some tr3 =>
      rw [hrpl] at h
      dsimp only at h
      rw [replaceRangeWithModel] at hrpl
      split at hrpl
      · rename_i d2 hrt2
        simp only [Option.some.injEq] at hrpl
        rw [replaceToks] at hrt2
        have hvd := parse_valid _ _ hrt2
        rw [deleteRangeModel] at hdel
        by_cases hcov : (r.pre.isEmpty && r.post.isEmpty) = true
        · rw [if_pos hcov] at hdel
          dsimp only at hdel
          split at hdel
          · rename_i d1 hrt1
            simp only [Option.some.injEq] at hdel
            subst hdel
            subst hrpl
            split at h <;>
            · injection h with hA hB
              subst hA
              refine ⟨hvd, Or.inr ⟨r.start - 1, r.rangeEnd + 1,
                fpi.previousItemStart - 1,
                fpi.previousItemStart + size fpi.previousItem - 2 + 1,
                size np, np, ?_, by omega, by simp⟩⟩
              have hle : r.start ≤ r.rangeEnd := by
                simp only [ItemRange.rangeEnd]
                exact Nat.le_add_right _ _
              omega
          · exact absurd hdel (by simp)
        · rw [if_neg hcov] at hdel
          dsimp only at hdel
          split at hdel
          · rename_i d1 hrt1
            simp only [Option.some.injEq] at hdel
            subst hdel
            subst hrpl
            split at h <;>
            · injection h with hA hB
              subst hA
              refine ⟨hvd, Or.inr ⟨r.start, r.rangeEnd,
                fpi.previousItemStart - 1,
                fpi.previousItemStart + size fpi.previousItem - 2 + 1,
                size np, np, ?_, by omega, by simp⟩⟩
              simp only [ItemRange.rangeEnd]
              exact Nat.le_add_right _ _
          · exact absurd hdel (by simp)
      · exact absurd hrpl (by simp)
    · rw [if_neg hok] at h
      simp at h


/-! Step-map monotonicity. -/

theorem oneChunkMap_mono (a b n : Nat) (p q : Int) (hpq : p ≤ q) :
    StepMap.mapPos ⟨[((a : Int), (b : Int) - (a : Int), (n : Int))]⟩ p
      ≤ StepMap.mapPos ⟨[((a : Int), (b : Int) - (a : Int), (n : Int))]⟩ q := by
  simp only [StepMap.mapPos, pmMapGo]
  split_ifs <;> omega

theorem twoChunkMap_mono (rs re : Nat) (p q : Int) (hpq : p ≤ q) :
    StepMap.mapPos ⟨[(((rs - 1 : Nat) : Int), (rs : Int) - ((rs - 1 : Nat) : Int), 1),
                     ((re : Int), ((re - 1 : Nat) : Int) - (re : Int), 1)]⟩ p
      ≤ StepMap.mapPos ⟨[(((rs - 1 : Nat) : Int), (rs : Int) - ((rs - 1 : Nat) : Int), 1),
                     ((re : Int), ((re - 1 : Nat) : Int) - (re : Int), 1)]⟩ q := by
  simp only [StepMap.mapPos, pmMapGo]
  split_ifs <;> omega

theorem caseAMap_id (rs re : Nat) (p : Nat) (hp : p < re) :
    (caseAMap rs re).mapPos (p : Int) = (p : Int) := by
  simp only [caseAMap, StepMap.mapPos, pmMapGo]
  split_ifs <;> omega

/-! Concrete evaluations on the scenario documents. -/

theorem calc_doc3 (k : ListKind) (ik : ItemKind) :
    calculateItemRange (doc3 k ik) 13 13 =
      some ⟨.top [] [], k, [.item ik [.para "item 1".toList]],
        [.item ik [.para "item 2".toList]],
        [.item ik [.para "item 3".toList]]⟩ := by
  rw [calculateItemRange]
  simp only [doc3, goBs_cons_list, goBs_cons_para, goBs_cons_item, goBs_nil,
    goItems_cons_item, goItems_cons_para, goItems_cons_list, goItems_nil,
    size, sizeL, mkCtx, buildRange, idxFrom, idxAfterTo]
  norm_num

theorem validDoc_doc3 (k : ListKind) (ik : ItemKind) (hkind : kindOk k ik = true) :
    validDoc (doc3 k ik) = true := by
  simp [doc3, validDoc, validBs, validB, validItems, hkind]

theorem indent_doc3 (k : ListKind) (ik : ItemKind) (hkind : kindOk k ik = true) :
    indentList (tr3 k ik) =
      ({ doc := doc3res k ik, selFrom := 13, selTo := 13,
         trace := [.step (caseAMap 11 21)] }, .ret true) := by
  have hA := indent_caseA (tr3 k ik)
    ⟨.top [] [], k, [.item ik [.para "item 1".toList]],
      [.item ik [.para "item 2".toList]], [.item ik [.para "item 3".toList]]⟩
    [] [.para "item 1".toList] ik (validDoc_doc3 k ik hkind) (calc_doc3 k ik) rfl
  rw [hA]
  rfl

theorem calc_docX : calculateItemRange docX 10 10 =
    some ⟨.top [.list .bullet [.item .plain [.para ['a']]]] [], .task, [],
      [.item (.taskItem false) [.para ['b']]], []⟩ := by
  rw [calculateItemRange]
  simp only [docX, goBs_cons_list, goBs_cons_para, goBs_cons_item, goBs_nil,
    goItems_cons_item, goItems_cons_para, goItems_cons_list, goItems_nil,
    size, sizeL, mkCtx, buildRange, idxFrom, idxAfterTo]
  norm_num

theorem indent_docX : indentList ⟨docX, 10, 10, []⟩ =
    ({ doc := docXres, selFrom := 8, selTo := 8,
       trace := [.step (delMap 7 14),
         .checkedNode (.item .plain [.para ['a'],
           .list .task [.item (.taskItem false) [.para ['b']]]]) true,
         .step (insMap 1 6 12)] }, .ret true) := by
  rw [indentList]
  rw [show (⟨docX, 10, 10, []⟩ : Tr).doc = docX from rfl,
    show (⟨docX, 10, 10, []⟩ : Tr).selFrom = 10 from rfl,
    show (⟨docX, 10, 10, []⟩ : Tr).selTo = 10 from rfl, calc_docX]
  rfl

theorem calc_docN : calculateItemRange docN 15 15 =
    some ⟨.top [] [], .bullet,
      [.item .plain [.para ['a'], .list .bullet [.item .plain [.para ['x']]]]],
      [.item .plain [.para ['b']]], []⟩ := by
  rw [calculateItemRange]
  simp only [docN, goBs_cons_list, goBs_cons_para, goBs_cons_item, goBs_nil,
    goItems_cons_item, goItems_cons_para, goItems_cons_list, goItems_nil,
    size, sizeL, mkCtx, buildRange, idxFrom, idxAfterTo]
  norm_num

theorem indent_docN : indentList ⟨docN, 15, 15, []⟩ =
    ({ doc := docNres, selFrom := 15, selTo := 15,
       trace := [.step (caseAMap 13 18)] }, .ret true) := by
  rw [indentList]
  rw [show (⟨docN, 15, 15, []⟩ : Tr).doc = docN from rfl,
    show (⟨docN, 15, 15, []⟩ : Tr).selFrom = 15 from rfl,
    show (⟨docN, 15, 15, []⟩ : Tr).selTo = 15 from rfl, calc_docN]
  rfl

/-! The claims. -/

/-- C1: on the three-item document `List[Item "item 1", Item "item 2",
Item "item 3"]` with the cursor inside item 2 (position 13), for every
list kind (bullet, ordered, task), `indentList` succeeds, the resulting
document is `List[Item("item 1", List[Item "item 2"]), Item "item 3"]`
(item 2 the sole item of a new nested list of the same kind inside item 1,
item 3 still a sibling), the selection is unchanged, and position 13 still
addresses item 2's paragraph text in the result. -/
theorem indent_simple_three_kinds :
    (indentList (tr3 .bullet .plain) =
        ({ doc := doc3res .bullet .plain, selFrom := 13, selTo := 13,
           trace := [.step (caseAMap 11 21)] }, .ret true) ∧
      paraAt (doc3res .bullet .plain) 13 = some "item 2".toList) ∧
    (indentList (tr3 .ordered .plain) =
        ({ doc := doc3res .ordered .plain, selFrom := 13, selTo := 13,
           trace := [.step (caseAMap 11 21)] }, .ret true) ∧
      paraAt (doc3res .ordered .plain) 13 = some "item 2".toList) ∧
    (indentList (tr3 .task (.taskItem false)) =
        ({ doc := doc3res .task (.taskItem false), selFrom := 13, selTo := 13,
           trace := [.step (caseAMap 11 21)] }, .ret true) ∧
      paraAt (doc3res .task (.taskItem false)) 13 = some "item 2".toList) :=
  ⟨⟨indent_doc3 .bullet .plain rfl, rfl⟩,
   ⟨indent_doc3 .ordered .plain rfl, rfl⟩,
   ⟨indent_doc3 .task (.taskItem false) rfl, rfl⟩⟩

/-- C4: whenever `indentList` returns `true`, the resulting document is
schema-valid, and in particular every list node in it has at least one
item child; an emptied nested list never survives (the witness exercises
the reconstruction path, where the emptied selected list is removed
entirely by the widened delete). -/
theorem indent_no_empty_lists (tr tr2 : Tr)
    (h : indentList tr = (tr2, Outcome.ret true)) :
    validDoc tr2.doc = true ∧ listsNonemptyL tr2.doc = true := by
  obtain ⟨hvd, -⟩ := indent_success_shape tr tr2 h
  refine ⟨hvd, ?_⟩
  simp only [validDoc, Bool.and_eq_true] at hvd
  exact validBs_listsNonempty _ hvd.2

theorem indent_no_empty_lists_witness :
    validDoc docXres = true ∧ listsNonemptyL docXres = true :=
  indent_no_empty_lists ⟨docX, 10, 10, []⟩
    ⟨docXres, 8, 8,
      [.step (delMap 7 14),
       .checkedNode (.item .plain [.para ['a'],
         .list .task [.item (.taskItem false) [.para ['b']]]]) true,
       .step (insMap 1 6 12)]⟩ indent_docX

/-- C5: for every run on which `indentList` returns `true` and every pair
of positions `p1 < p2`, the composition of the position maps of the steps
it emitted is monotone: `map p1 ≤ map p2`. -/
theorem indent_mapping_monotone (tr tr2 : Tr) (p1 p2 : Int)
    (h : indentList tr = (tr2, Outcome.ret true)) (hp : p1 < p2) :
    mapThrough (emittedMaps tr tr2) p1 ≤ mapThrough (emittedMaps tr tr2) p2 := by
  obtain ⟨-, hsh⟩ := indent_success_shape tr tr2 h
  cases hsh with
  | inl hA =>
      obtain ⟨rs, re, hle, htr⟩ := hA
      rw [emittedMaps, htr, List.drop_left]
      simp only [List.filterMap_cons, List.filterMap_nil, mapThrough,
        List.foldl_cons, List.foldl_nil]
      exact twoChunkMap_mono rs re p1 p2 (le_of_lt hp)
  | inr hB =>
      obtain ⟨a1, b1, a2, b2, n2, nk, h1, h2, htr⟩ := hB
      rw [emittedMaps, htr, List.drop_left]
      simp only [List.filterMap_cons, List.filterMap_nil, mapThrough,
        List.foldl_cons, List.foldl_nil]
      exact oneChunkMap_mono a2 b2 n2 _ _ (oneChunkMap_mono a1 b1 0 p1 p2 (le_of_lt hp))

theorem indent_mapping_monotone_witness :
    mapThrough (emittedMaps (tr3 .bullet .plain)
      ⟨doc3res .bullet .plain, 13, 13, [.step (caseAMap 11 21)]⟩) 3 ≤
    mapThrough (emittedMaps (tr3 .bullet .plain)
      ⟨doc3res .bullet .plain, 13, 13, [.step (caseAMap 11 21)]⟩) 5 :=
  indent_mapping_monotone (tr3 .bullet .plain)
    ⟨doc3res .bullet .plain, 13, 13, [.step (caseAMap 11 21)]⟩ 3 5
    (indent_doc3 .bullet .plain rfl) (by norm_num)

/-- C3: when no item range resolves, when the resolved range starts at
the first item with no preceding sibling at the parent level, and when a
preceding sibling exists there but is not a list node, `indentList`
returns `false` and hands back the transaction untouched (same document,
same selection, no step appended). -/
theorem indent_failure_noop (tr : Tr) :
    (calculateItemRange tr.doc tr.selFrom tr.selTo = none →
      indentList tr = (tr, Outcome.ret false)) ∧
    (∀ r : ItemRange, calculateItemRange tr.doc tr.selFrom tr.selTo = some r →
      r.pre = [] → sibsBefore r.ctx = [] →
      indentList tr = (tr, Outcome.ret false)) ∧
    (∀ (r : ItemRange) (sb0 : List PMNode) (lastb : PMNode),
      calculateItemRange tr.doc tr.selFrom tr.selTo = some r →
      r.pre = [] → sibsBefore r.ctx = sb0 ++ [lastb] →
      isListNode lastb = false →
      indentList tr = (tr, Outcome.ret false)) := by
  refine ⟨?_, ?_, ?_⟩
  · intro hc
    rw [indentList, hc]
  · intro r hc hpre hsib
    have hfpi : findPreviousItem (.list r.k r.items) r = none := by
      rw [findPreviousItem]
      rw [if_neg (by simp [ItemRange.startIndex, hpre])]
      simp [hsib]
    rw [indentList, hc]
    dsimp only
    rw [hfpi]
  · intro r sb0 lastb hc hpre hsb hnl
    have hfpi : findPreviousItem (.list r.k r.items) r = none := by
      rw [findPreviousItem]
      rw [if_neg (by simp [ItemRange.startIndex, hpre])]
      simp only [hsb, List.length_append, List.length_cons, List.length_nil,
        List.getLast?_concat, ge_iff_le]
      rw [if_pos (by omega)]
      simp [hnl]
    rw [indentList, hc]
    dsimp only
    rw [hfpi]

theorem indent_failure_noop_witness :
    indentList ⟨[.para ['x']], 1, 1, []⟩ =
      (⟨[.para ['x']], 1, 1, []⟩, Outcome.ret false) ∧
    indentList ⟨docFirst .bullet .plain, 3, 3, []⟩ =
      (⟨docFirst .bullet .plain, 3, 3, []⟩, Outcome.ret false) ∧
    indentList ⟨[.para ['p'], .list .bullet [.item .plain [.para ['a']]]],
        6, 6, []⟩ =
      (⟨[.para ['p'], .list .bullet [.item .plain [.para ['a']]]], 6, 6, []⟩,
        Outcome.ret false) :=
  ⟨(indent_failure_noop ⟨[.para ['x']], 1, 1, []⟩).1
     (by
       rw [calculateItemRange]
       simp [goBs_cons_para, goBs_nil, size, sizeL]),
   (indent_failure_noop ⟨docFirst .bullet .plain, 3, 3, []⟩).2.1
     ⟨.top [] [], .bullet, [], [.item .plain [.para ['a']]], []⟩
     (by
       rw [calculateItemRange]
       simp only [docFirst, goBs_cons_list, goBs_cons_para, goBs_cons_item,
         goBs_nil, goItems_cons_item, goItems_cons_para, goItems_cons_list,
         goItems_nil, size, sizeL, mkCtx, buildRange, idxFrom, idxAfterTo]
       norm_num)
     rfl rfl,
   (indent_failure_noop ⟨[.para ['p'],
       .list .bullet [.item .plain [.para ['a']]]], 6, 6, []⟩).2.2
     ⟨.top [.para ['p']] [], .bullet, [], [.item .plain [.para ['a']]], []⟩
     [] (.para ['p'])
     (by
       rw [calculateItemRange]
       simp only [goBs_cons_list, goBs_cons_para, goBs_cons_item,
         goBs_nil, goItems_cons_item, goItems_cons_para, goItems_cons_list,
         goItems_nil, size, sizeL, mkCtx, buildRange, idxFrom, idxAfterTo]
       norm_num)
     rfl rfl rfl⟩

/-- C6: `findPreviousItem` returns the immediately preceding sibling item
of the range's list when the start index is at least 1 (with the start
positions the source's loop computes); with start index 0 it returns the
last item of the previous sibling at the parent level provided that
sibling exists, is a list, and its last child is an item; in every other
case (no previous sibling, previous sibling not a list, last child not an
item, previous sibling an empty list) it reports failure. -/
theorem findPreviousItem_spec (sl : PMNode) (r : ItemRange) :
    (∀ ppre pitem, r.pre = ppre ++ [pitem] →
      findPreviousItem sl r =
        some ⟨pitem, sl, r.listStart + 1 + sizeL ppre, r.listStart, true⟩) ∧
    (r.pre = [] →
      (∀ sb0 k2 pits ik2 pc2,
        sibsBefore r.ctx = sb0 ++ [.list k2 (pits ++ [.item ik2 pc2])] →
        findPreviousItem sl r =
          some ⟨.item ik2 pc2, .list k2 (pits ++ [.item ik2 pc2]),
            parentStart r.ctx + sizeL sb0 + sizeL pits + 2,
            parentStart r.ctx + 1 + sizeL sb0, false⟩) ∧
      (sibsBefore r.ctx = [] → findPreviousItem sl r = none) ∧
      (∀ sb0 lastb, sibsBefore r.ctx = sb0 ++ [lastb] →
        isListNode lastb = false → findPreviousItem sl r = none) ∧
      (∀ sb0 k2 lastc pits,
        sibsBefore r.ctx = sb0 ++ [.list k2 (pits ++ [lastc])] →
        isListItemNode lastc = false → findPreviousItem sl r = none) ∧
      (∀ sb0 k2, sibsBefore r.ctx = sb0 ++ [.list k2 []] →
        findPreviousItem sl r = none)) := by
  constructor
  · intro ppre pitem hpre
    rw [findPreviousItem]
    rw [if_pos (by simp [ItemRange.startIndex, hpre])]
    rw [hpre, List.getLast?_concat]
    simp [List.dropLast_concat]
  · intro hpre
    have hno : ¬ r.startIndex ≥ 1 := by simp [ItemRange.startIndex, hpre]
    refine ⟨?_, ?_, ?_, ?_, ?_⟩
    · intro sb0 k2 pits ik2 pc2 hsb
      rw [findPreviousItem, if_neg hno]
      simp only [hsb, List.length_append, List.length_cons, List.length_nil,
        List.getLast?_concat, List.dropLast_concat, ge_iff_le]
      rw [if_pos (by omega)]
      simp only [isListNode, if_true, List.getLast?_concat, isListItemNode,
        Option.some.injEq, FPIResult.mk.injEq]
      refine ⟨trivial, trivial, ?_, trivial, trivial⟩
      simp only [size, sizeL_append, sizeL]
      omega
    · intro hsb
      rw [findPreviousItem, if_neg hno]
      simp [hsb]
    · intro sb0 lastb hsb hnl
      rw [findPreviousItem, if_neg hno]
      simp only [hsb, List.length_append, List.length_cons, List.length_nil,
        List.getLast?_concat, ge_iff_le]
      rw [if_pos (by omega)]
      simp [hnl]
    · intro sb0 k2 lastc pits hsb hni
      rw [findPreviousItem, if_neg hno]
      simp only [hsb, List.length_append, List.length_cons, List.length_nil,
        List.getLast?_concat, ge_iff_le]
      rw [if_pos (by omega)]
      simp [isListNode, List.getLast?_concat, hni]
    · intro sb0 k2 hsb
      rw [findPreviousItem, if_neg hno]
      simp only [hsb, List.length_append, List.length_cons, List.length_nil,
        List.getLast?_concat, ge_iff_le]
      rw [if_pos (by omega)]
      simp [isListNode]

theorem findPreviousItem_spec_witness :
    findPreviousItem
        (.list .bullet [.item .plain [.para "item 1".toList],
          .item .plain [.para "item 2".toList],
          .item .plain [.para "item 3".toList]])
        ⟨.top [] [], .bullet, [.item .plain [.para "item 1".toList]],
          [.item .plain [.para "item 2".toList]],
          [.item .plain [.para "item 3".toList]]⟩ =
      some ⟨.item .plain [.para "item 1".toList],
        .list .bullet [.item .plain [.para "item 1".toList],
          .item .plain [.para "item 2".toList],
          .item .plain [.para "item 3".toList]], 2, 1, true⟩ ∧
    findPreviousItem (.list .bullet [.item .plain [.para ['a']]])
        ⟨.top [] [], .bullet, [], [.item .plain [.para ['a']]], []⟩ = none :=
  ⟨(findPreviousItem_spec
      (.list .bullet [.item .plain [.para "item 1".toList],
        .item .plain [.para "item 2".toList],
        .item .plain [.para "item 3".toList]])
      ⟨.top [] [], .bullet, [.item .plain [.para "item 1".toList]],
        [.item .plain [.para "item 2".toList]],
        [.item .plain [.para "item 3".toList]]⟩).1
     [] (.item .plain [.para "item 1".toList]) rfl,
   ((findPreviousItem_spec (.list .bullet [.item .plain [.para ['a']]])
      ⟨.top [] [], .bullet, [], [.item .plain [.para ['a']]], []⟩).2
     rfl).2.1 rfl⟩

/-- C7 counterexample: on `docN` the previous item already ends with a
nested list of the same kind, and indent succeeds — but the moved item is
not spliced into the tail of that existing nested list: the transform
creates a second, fresh nested list next to it, so the result differs
from the document the claim describes. -/
theorem indent_sametype_cex :
    indentList ⟨docN, 15, 15, []⟩ =
      ({ doc := docNres, selFrom := 15, selTo := 15,
         trace := [.step (caseAMap 13 18)] }, .ret true) ∧
    docNres ≠ docNpred :=
  ⟨indent_docN, by decide⟩

/-- C7 (amended): on the same-type path the covered items are wrapped in
a fresh list node (`selectedList.copy()`) appended as a new last child of
the previous item — they are not merged into an existing nested list —
and the resulting document is schema-valid. -/
theorem indent_sametype_fresh_list (tr : Tr) (r : ItemRange)
    (ppre pc : List PMNode) (ik : ItemKind) (hv : validDoc tr.doc = true)
    (hres : calculateItemRange tr.doc tr.selFrom tr.selTo = some r)
    (hpre : r.pre = ppre ++ [.item ik pc]) :
    indentList tr =
      ({ doc := rebuildA r ppre ik pc, selFrom := tr.selFrom,
         selTo := tr.selTo,
         trace := tr.trace ++ [.step (caseAMap r.start r.rangeEnd)] },
       .ret true) ∧
    validDoc (rebuildA r ppre ik pc) = true := by
  have hA := indent_caseA tr r ppre pc ik hv hres hpre
  refine ⟨hA, ?_⟩
  obtain ⟨hvd, -⟩ := indent_success_shape tr _ hA
  exact hvd

theorem indent_sametype_fresh_list_witness :
    (indentList ⟨docN, 15, 15, []⟩ =
      ({ doc := docNres, selFrom := 15, selTo := 15,
         trace := [.step (caseAMap 13 18)] }, .ret true)) ∧
    validDoc docNres = true :=
  indent_sametype_fresh_list ⟨docN, 15, 15, []⟩
    ⟨.top [] [], .bullet,
      [.item .plain [.para ['a'], .list .bullet [.item .plain [.para ['x']]]]],
      [.item .plain [.para ['b']]], []⟩
    [] [.para ['a'], .list .bullet [.item .plain [.para ['x']]]] .plain
    (by decide) calc_docN rfl

/-- C8 counterexample: on the schema-valid cross-type document `docX` the
reconstruction path applies its deletion step to the live transaction
before checking the constructed replacement node — the trace shows a step
event strictly before the check event — so the validity check does not
happen before mutation, and a failing check would propagate as a thrown
error after that mutation rather than as a `false` return. -/
theorem indent_check_cex :
    indentList ⟨docX, 10, 10, []⟩ =
      ({ doc := docXres, selFrom := 8, selTo := 8,
         trace := [.step (delMap 7 14),
           .checkedNode (.item .plain [.para ['a'],
             .list .task [.item (.taskItem false) [.para ['b']]]]) true,
           .step (insMap 1 6 12)] }, .ret true) ∧
    stepSeenBeforeCheck false
      [Ev.step (delMap 7 14),
       Ev.checkedNode (.item .plain [.para ['a'],
         .list .task [.item (.taskItem false) [.para ['b']]]]) true,
       Ev.step (insMap 1 6 12)] = true :=
  ⟨indent_docX, by decide⟩

/-- C8 (amended): on the reconstruction path the constructed replacement
node is checked only after the deletion step has already been applied to
the transaction: the command succeeds with a trace in which a step event
precedes the check event (and a failing check would throw out of the
command after that mutation instead of returning `false`). -/
theorem indent_check_after_mutation (tr : Tr) (r : ItemRange)
    (sb0 pj pc2 selCont unsel : List PMNode) (k2 : ListKind) (ik2 : ItemKind)
    (hv : validDoc tr.doc = true)
    (hres : calculateItemRange tr.doc tr.selFrom tr.selTo = some r)
    (hpre0 : r.pre = [])
    (hsb : sibsBefore r.ctx = sb0 ++ [.list k2 (pj ++ [.item ik2 pc2])])
    (hk : ¬ k2 = r.k)
    (hslice : sliceSelectedItems r tr.selTo = (selCont, unsel)) :
    indentList tr =
      ({ doc := rebuildB r k2 pj ik2 pc2 selCont unsel,
         selFrom := tr.selFrom - 2, selTo := tr.selTo - 2,
         trace := tr.trace ++
           [.step (delMap (if r.post.isEmpty then r.start - 1 else r.start)
              (if r.post.isEmpty then r.rangeEnd + 1 else r.rangeEnd)),
            .checkedNode (.item ik2 (pc2 ++ PMNode.list r.k selCont :: unsel)) true,
            .step (insMap ((ctxParentPre r.ctx).length + sizeL sb0 + 1 + sizeL pj)
               ((ctxParentPre r.ctx).length + sizeL sb0 + 1 + sizeL pj
                 + (sizeL pc2 + 2))
               (sizeL (pc2 ++ PMNode.list r.k selCont :: unsel) + 2))] },
       .ret true) ∧
    stepSeenBeforeCheck false
      [Ev.step (delMap (if r.post.isEmpty then r.start - 1 else r.start)
         (if r.post.isEmpty then r.rangeEnd + 1 else r.rangeEnd)),
       Ev.checkedNode (.item ik2 (pc2 ++ PMNode.list r.k selCont :: unsel)) true,
       Ev.step (insMap ((ctxParentPre r.ctx).length + sizeL sb0 + 1 + sizeL pj)
          ((ctxParentPre r.ctx).length + sizeL sb0 + 1 + sizeL pj
            + (sizeL pc2 + 2))
          (sizeL (pc2 ++ PMNode.list r.k selCont :: unsel) + 2))] = true := by
  refine ⟨indent_caseB tr r sb0 pj pc2 selCont unsel k2 ik2 hv hres hpre0 hsb hk
    hslice, ?_⟩
  simp [stepSeenBeforeCheck]

theorem indent_check_after_mutation_witness :
    indentList ⟨docX, 10, 10, []⟩ =
      ({ doc := docXres, selFrom := 8, selTo := 8,
         trace := [.step (delMap 7 14),
           .checkedNode (.item .plain [.para ['a'],
             .list .task [.item (.taskItem false) [.para ['b']]]]) true,
           .step (insMap 1 6 12)] }, .ret true) ∧
    stepSeenBeforeCheck false
      [Ev.step (delMap 7 14),
       Ev.checkedNode (.item .plain [.para ['a'],
         .list .task [.item (.taskItem false) [.para ['b']]]]) true,
       Ev.step (insMap 1 6 12)] = true :=
  indent_check_after_mutation ⟨docX, 10, 10, []⟩
    ⟨.top [.list .bullet [.item .plain [.para ['a']]]] [], .task, [],
      [.item (.taskItem false) [.para ['b']]], []⟩
    [] [] [.para ['a']] [.item (.taskItem false) [.para ['b']]] []
    .bullet .plain (by decide) calc_docX rfl rfl (by decide) rfl

/-- C2 counterexample: indent succeeds on `docX` (cursor in the task
item) and its result is exactly the dedent input of the now-nested range,
but dedenting that range does not restore `docX`: the promoted task item
becomes a direct child of the bullet list instead of a separate sibling
task list. -/
theorem indent_dedent_cex :
    indentList ⟨docX, 10, 10, []⟩ =
      ({ doc := docXres, selFrom := 8, selTo := 8,
         trace := [.step (delMap 7 14),
           .checkedNode (.item .plain [.para ['a'],
             .list .task [.item (.taskItem false) [.para ['b']]]]) true,
           .step (insMap 1 6 12)] }, .ret true) ∧
    docXres = dedentInput (.top [] []) .bullet [] [] .plain [.para ['a']]
      .task [] [.item (.taskItem false) [.para ['b']]] [] [] ∧
    dedentSpec (.top [] []) .bullet [] [] .plain [.para ['a']]
      .task [] [.item (.taskItem false) [.para ['b']]] [] [] ≠ docX :=
  ⟨indent_docX, by decide, by decide⟩

/-- C2 (amended): on the same-list path the round trip is exact: indent
produces precisely the dedent input of the newly created nested range,
and the dedent transform of that range restores the original document
content-for-content. -/
theorem indent_dedent_roundtrip (tr : Tr) (r : ItemRange)
    (ppre pc : List PMNode) (ik : ItemKind) (hv : validDoc tr.doc = true)
    (hres : calculateItemRange tr.doc tr.selFrom tr.selTo = some r)
    (hpre : r.pre = ppre ++ [.item ik pc]) :
    indentList tr =
      ({ doc := rebuildA r ppre ik pc, selFrom := tr.selFrom,
         selTo := tr.selTo,
         trace := tr.trace ++ [.step (caseAMap r.start r.rangeEnd)] },
       .ret true) ∧
    rebuildA r ppre ik pc =
      dedentInput r.ctx r.k ppre r.post ik pc r.k [] r.ranged [] [] ∧
    dedentSpec r.ctx r.k ppre r.post ik pc r.k [] r.ranged [] [] = tr.doc := by
  obtain ⟨hplug, -, -⟩ := calc_sound tr.doc tr.selFrom tr.selTo r hres
  refine ⟨indent_caseA tr r ppre pc ik hv hres hpre, ?_, ?_⟩
  · simp [rebuildA, dedentInput]
  · rw [hplug, ItemRange.items, hpre]
    simp [dedentSpec, List.append_assoc]

theorem indent_dedent_roundtrip_witness :
    indentList (tr3 .bullet .plain) =
      ({ doc := doc3res .bullet .plain, selFrom := 13, selTo := 13,
         trace := [.step (caseAMap 11 21)] }, .ret true) ∧
    doc3res .bullet .plain =
      dedentInput (.top [] []) .bullet [] [.item .plain [.para "item 3".toList]]
        .plain [.para "item 1".toList] .bullet []
        [.item .plain [.para "item 2".toList]] [] [] ∧
    dedentSpec (.top [] []) .bullet [] [.item .plain [.para "item 3".toList]]
        .plain [.para "item 1".toList] .bullet []
        [.item .plain [.para "item 2".toList]] [] [] = doc3 .bullet .plain :=
  indent_dedent_roundtrip (tr3 .bullet .plain)
    ⟨.top [] [], .bullet, [.item .plain [.para "item 1".toList]],
      [.item .plain [.para "item 2".toList]],
      [.item .plain [.para "item 3".toList]]⟩
    [] [.para "item 1".toList] .plain
    (validDoc_doc3 .bullet .plain rfl) (calc_doc3 .bullet .plain) rfl

/-- An inline selection endpoint (strictly inside a paragraph) lies
strictly below the resolved range's end position (whose preceding token
is the closing boundary of the last covered item). -/
theorem inline_lt_rangeEnd (tr : Tr) (r : ItemRange)
    (hv : validDoc tr.doc = true)
    (hres : calculateItemRange tr.doc tr.selFrom tr.selTo = some r)
    (hinl : inlineAt tr.doc tr.selTo = true) :
    tr.selTo < r.rangeEnd := by
  obtain ⟨hplug, hrne, hle⟩ := calc_sound tr.doc tr.selFrom tr.selTo r hres
  rcases Nat.lt_or_ge tr.selTo r.rangeEnd with hlt | hge
  · exact hlt
  · exfalso
    have heq : tr.selTo = r.rangeEnd := le_antisymm hle hge
    have hv2 := hv
    rw [hplug] at hv2
    obtain ⟨hctx, hlist⟩ := (validDoc_plugB _ _).mp hv2
    have hitems : validItems r.k r.items = true := by
      simp only [validB, Bool.and_eq_true] at hlist
      exact hlist.2
    have hrgv : validItems r.k r.ranged = true := by
      rw [ItemRange.items, validItems_append, validItems_append,
        Bool.and_eq_true, Bool.and_eq_true] at hitems
      exact hitems.1.2
    obtain ⟨rr, ikL, cL, hrg, -⟩ := validItems_last r.k r.ranged hrgv hrne
    have hT : toksL tr.doc
        = (ctxPre r.ctx ++ Tok.openL r.k :: (toksL r.pre ++ (toksL rr
            ++ Tok.openI ikL :: toksL cL)))
          ++ Tok.closeI (sortOf ikL)
          :: (toksL r.post ++ Tok.closeL r.k :: ctxSuf r.ctx) := by
      rw [hplug, toksL_plugB]
      simp [toks, ItemRange.items, hrg, toksL_append, toksL, List.append_assoc]
    have hlen : (ctxPre r.ctx ++ Tok.openL r.k :: (toksL r.pre ++ (toksL rr
        ++ Tok.openI ikL :: toksL cL))).length = r.rangeEnd - 1 := by
      simp only [List.length_append, List.length_cons, toksL_len,
        ItemRange.rangeEnd, ItemRange.start, ItemRange.listStart]
      rw [hrg]
      simp only [sizeL_append, sizeL, size]
      omega
    have hget : (toksL tr.doc).get? (r.rangeEnd - 1)
        = some (Tok.closeI (sortOf ikL)) := by
      rw [hT, ← hlen, List.get?_append_right (le_refl _)]
      simp
    have h1 : 1 ≤ r.rangeEnd := by
      simp only [ItemRange.rangeEnd, ItemRange.start, ItemRange.listStart]
      omega
    obtain ⟨q, hq⟩ : ∃ q, tr.selTo = q + 1 := ⟨r.rangeEnd - 1, by omega⟩
    rw [hq] at hinl
    have hq2 : q = r.rangeEnd - 1 := by omega
    rw [inlineAt] at hinl
    rw [hq2] at hinl
    rw [hget] at hinl
    simp at hinl

/-- C9: after a successful indent, when previous list and selected list
were the same list (same-list path) the selection keeps the original
positions, and those equal the originals mapped through the emitted
step's position map (the map is the identity below the range end, and an
inline endpoint lies below it); when the tree was reconstructed, anchor
and head are the original positions shifted down by the two structural
tokens removed before them. -/
theorem indent_selection_update (tr : Tr) (r : ItemRange) :
    (∀ ppre pc ik, validDoc tr.doc = true →
      calculateItemRange tr.doc tr.selFrom tr.selTo = some r →
      r.pre = ppre ++ [.item ik pc] →
      tr.selFrom ≤ tr.selTo → inlineAt tr.doc tr.selTo = true →
      indentList tr =
        ({ doc := rebuildA r ppre ik pc, selFrom := tr.selFrom,
           selTo := tr.selTo,
           trace := tr.trace ++ [.step (caseAMap r.start r.rangeEnd)] },
         .ret true) ∧
      mapThrough (emittedMaps tr
          { doc := rebuildA r ppre ik pc, selFrom := tr.selFrom,
            selTo := tr.selTo,
            trace := tr.trace ++ [.step (caseAMap r.start r.rangeEnd)] })
          (tr.selFrom : Int) = (tr.selFrom : Int) ∧
      mapThrough (emittedMaps tr
          { doc := rebuildA r ppre ik pc, selFrom := tr.selFrom,
            selTo := tr.selTo,
            trace := tr.trace ++ [.step (caseAMap r.start r.rangeEnd)] })
          (tr.selTo : Int) = (tr.selTo : Int)) ∧
    (∀ sb0 pj pc2 selCont unsel k2 ik2, validDoc tr.doc = true →
      calculateItemRange tr.doc tr.selFrom tr.selTo = some r →
      r.pre = [] →
      sibsBefore r.ctx = sb0 ++ [.list k2 (pj ++ [.item ik2 pc2])] →
      ¬ k2 = r.k →
      sliceSelectedItems r tr.selTo = (selCont, unsel) →
      indentList tr =
        ({ doc := rebuildB r k2 pj ik2 pc2 selCont unsel,
           selFrom := tr.selFrom - 2, selTo := tr.selTo - 2,
           trace := tr.trace ++
             [.step (delMap (if r.post.isEmpty then r.start - 1 else r.start)
                (if r.post.isEmpty then r.rangeEnd + 1 else r.rangeEnd)),
              .checkedNode
                (.item ik2 (pc2 ++ PMNode.list r.k selCont :: unsel)) true,
              .step (insMap
                 ((ctxParentPre r.ctx).length + sizeL sb0 + 1 + sizeL pj)
                 ((ctxParentPre r.ctx).length + sizeL sb0 + 1 + sizeL pj
                   + (sizeL pc2 + 2))
                 (sizeL (pc2 ++ PMNode.list r.k selCont :: unsel) + 2))] },
         .ret true)) := by
  constructor
  · intro ppre pc ik hv hres hpre hord hinl
    have hA := indent_caseA tr r ppre pc ik hv hres hpre
    refine ⟨hA, ?_, ?_⟩ <;>
    · rw [emittedMaps]
      dsimp only
      rw [List.drop_left]
      simp only [List.filterMap_cons, List.filterMap_nil, mapThrough,
        List.foldl_cons, List.foldl_nil]
      have hlt := inline_lt_rangeEnd tr r hv hres hinl
      exact caseAMap_id r.start r.rangeEnd _ (by omega)
  · intro sb0 pj pc2 selCont unsel k2 ik2 hv hres hpre0 hsb hk hslice
    exact indent_caseB tr r sb0 pj pc2 selCont unsel k2 ik2 hv hres hpre0 hsb
      hk hslice

theorem indent_selection_update_witness :
    (indentList (tr3 .bullet .plain) =
      ({ doc := doc3res .bullet .plain, selFrom := 13, selTo := 13,
         trace := [.step (caseAMap 11 21)] }, .ret true) ∧
     mapThrough (emittedMaps (tr3 .bullet .plain)
         ⟨doc3res .bullet .plain, 13, 13, [.step (caseAMap 11 21)]⟩)
         (13 : Int) = (13 : Int) ∧
     mapThrough (emittedMaps (tr3 .bullet .plain)
         ⟨doc3res .bullet .plain, 13, 13, [.step (caseAMap 11 21)]⟩)
         (13 : Int) = (13 : Int)) ∧
    indentList ⟨docX, 10, 10, []⟩ =
      ({ doc := docXres, selFrom := 8, selTo := 8,
         trace := [.step (delMap 7 14),
           .checkedNode (.item .plain [.para ['a'],
             .list .task [.item (.taskItem false) [.para ['b']]]]) true,
           .step (insMap 1 6 12)] }, .ret true) :=
  ⟨(indent_selection_update (tr3 .bullet .plain)
      ⟨.top [] [], .bullet, [.item .plain [.para "item 1".toList]],
        [.item .plain [.para "item 2".toList]],
        [.item .plain [.para "item 3".toList]]⟩).1
     [] [.para "item 1".toList] .plain
     (validDoc_doc3 .bullet .plain rfl) (calc_doc3 .bullet .plain) rfl
     (by decide) (by decide),
   (indent_selection_update ⟨docX, 10, 10, []⟩
      ⟨.top [.list .bullet [.item .plain [.para ['a']]]] [], .task, [],
        [.item (.taskItem false) [.para ['b']]], []⟩).2
     [] [] [.para ['a']] [.item (.taskItem false) [.para ['b']]] []
     .bullet .plain (by decide) calc_docX rfl rfl (by decide) rfl⟩

theorem drop_succ {α : Type} (l : List α) (n : Nat) :
    l.drop (n + 1) = (l.drop n).drop 1 := by
  rw [List.drop_drop]

theorem take_one_tail {α : Type} (l : List α) : List.take 1 l ++ l.tail = l := by
  rw [← List.drop_one, List.take_append_drop]

/-- C10: on every successful indent, the tokens strictly before the
located previous item (the take position is `previousItemStart - 1`; the
conjunct on `findPreviousItem` exhibits that start) and the tokens
strictly after the selected range (from position `rangeEnd + 1` on; the
token at `rangeEnd` itself is the selected list's closing boundary, which
the widened delete of an emptied list removes) are preserved verbatim:
original and result decompose around the same prefix and suffix. -/
theorem indent_frame (tr : Tr) (r : ItemRange) :
    (∀ ppre pc ik, validDoc tr.doc = true →
      calculateItemRange tr.doc tr.selFrom tr.selTo = some r →
      r.pre = ppre ++ [.item ik pc] →
      findPreviousItem (.list r.k r.items) r =
        some ⟨.item ik pc, .list r.k r.items, r.listStart + 1 + sizeL ppre,
          r.listStart, true⟩ ∧
      ∃ tr2 mid mid2,
        indentList tr = (tr2, .ret true) ∧
        toksL tr.doc =
          (toksL tr.doc).take (r.listStart + sizeL ppre) ++ mid ++
            (toksL tr.doc).drop (r.rangeEnd + 1) ∧
        toksL tr2.doc =
          (toksL tr.doc).take (r.listStart + sizeL ppre) ++ mid2 ++
            (toksL tr.doc).drop (r.rangeEnd + 1)) ∧
    (∀ sb0 pj pc2 selCont unsel k2 ik2, validDoc tr.doc = true →
      calculateItemRange tr.doc tr.selFrom tr.selTo = some r →
      r.pre = [] →
      sibsBefore r.ctx = sb0 ++ [.list k2 (pj ++ [.item ik2 pc2])] →
      ¬ k2 = r.k →
      sliceSelectedItems r tr.selTo = (selCont, unsel) →
      findPreviousItem (.list r.k r.items) r =
        some ⟨.item ik2 pc2, .list k2 (pj ++ [.item ik2 pc2]),
          (ctxParentPre r.ctx).length + sizeL sb0 + 1 + sizeL pj + 1,
          (ctxParentPre r.ctx).length + 1 + sizeL sb0, false⟩ ∧
      ∃ tr2 mid mid2,
        indentList tr = (tr2, .ret true) ∧
        toksL tr.doc =
          (toksL tr.doc).take
              ((ctxParentPre r.ctx).length + sizeL sb0 + 1 + sizeL pj) ++ mid ++
            (toksL tr.doc).drop (r.rangeEnd + 1) ∧
        toksL tr2.doc =
          (toksL tr.doc).take
              ((ctxParentPre r.ctx).length + sizeL sb0 + 1 + sizeL pj) ++ mid2 ++
            (toksL tr.doc).drop (r.rangeEnd + 1)) := by
  constructor
  · intro ppre pc ik hv hres hpre
    obtain ⟨hplug, hrne, -⟩ := calc_sound tr.doc tr.selFrom tr.selTo r hres
    constructor
    · rw [findPreviousItem]
      rw [if_pos (by simp [ItemRange.startIndex, hpre])]
      rw [hpre, List.getLast?_concat]
      simp [List.dropLast_concat]
    · have hA := indent_caseA tr r ppre pc ik hv hres hpre
      have hT : toksL tr.doc
          = (ctxPre r.ctx ++ Tok.openL r.k :: toksL ppre)
            ++ ((toks (.item ik pc) ++ toksL r.ranged)
              ++ (toksL r.post ++ Tok.closeL r.k :: ctxSuf r.ctx)) := by
        rw [hplug, toksL_plugB]
        simp [toks, ItemRange.items, hpre, toksL_append, toksL,
          List.append_assoc]
      have htake : (toksL tr.doc).take (r.listStart + sizeL ppre)
          = ctxPre r.ctx ++ Tok.openL r.k :: toksL ppre := by
        rw [hT]
        exact take_at _ _ _
          (by simp [toksL_len, ItemRange.listStart]; omega)
      have hdropRE : (toksL tr.doc).drop r.rangeEnd
          = toksL r.post ++ Tok.closeL r.k :: ctxSuf r.ctx := by
        rw [hT]
        rw [show (ctxPre r.ctx ++ Tok.openL r.k :: toksL ppre)
              ++ ((toks (.item ik pc) ++ toksL r.ranged)
                ++ (toksL r.post ++ Tok.closeL r.k :: ctxSuf r.ctx))
            = ((ctxPre r.ctx ++ Tok.openL r.k :: toksL ppre)
              ++ (toks (.item ik pc) ++ toksL r.ranged))
              ++ (toksL r.post ++ Tok.closeL r.k :: ctxSuf r.ctx)
          from by simp [List.append_assoc]]
        exact drop_at _ _ _
          (by
            simp only [List.length_append, List.length_cons, toksL_len,
              toks_len, ItemRange.rangeEnd, ItemRange.start,
              ItemRange.listStart, hpre, sizeL_append, sizeL, size]
            omega)
      have hdropQ : (toksL tr.doc).drop (r.rangeEnd + 1)
          = (toksL r.post ++ Tok.closeL r.k :: ctxSuf r.ctx).drop 1 := by
        rw [drop_succ, hdropRE]
      refine ⟨_, (toks (.item ik pc) ++ toksL r.ranged)
          ++ (toksL r.post ++ Tok.closeL r.k :: ctxSuf r.ctx).take 1,
        toks (.item ik (pc ++ [.list r.k r.ranged]))
          ++ (toksL r.post ++ Tok.closeL r.k :: ctxSuf r.ctx).take 1,
        hA, ?_, ?_⟩
      · rw [htake, hdropQ, hT]
        simp [List.append_assoc, List.take_append_drop, take_one_tail]
      · rw [htake, hdropQ]
        dsimp only
        rw [rebuildA, toksL_plugB]
        simp [toks, toksL_append, toksL, List.append_assoc,
          List.take_append_drop, take_one_tail]
  · intro sb0 pj pc2 selCont unsel k2 ik2 hv hres hpre0 hsb hk hslice
    obtain ⟨hplug, hrne, -⟩ := calc_sound tr.doc tr.selFrom tr.selTo r hres
    constructor
    · rw [findPreviousItem]
      rw [if_neg (by simp [ItemRange.startIndex, hpre0])]
      simp only [hsb, List.length_append, List.length_cons, List.length_nil,
        List.getLast?_concat, List.dropLast_concat, parentStart_eq, ge_iff_le]
      rw [if_pos (by omega)]
      simp only [isListNode, if_true, List.getLast?_concat, isListItemNode,
        Option.some.injEq, FPIResult.mk.injEq]
      refine ⟨trivial, trivial, ?_, trivial, trivial⟩
      simp only [size, sizeL_append, sizeL]
      omega
    · have hB := indent_caseB tr r sb0 pj pc2 selCont unsel k2 ik2 hv hres
        hpre0 hsb hk hslice
      have hT : toksL tr.doc
          = (ctxParentPre r.ctx ++ (toksL sb0 ++ Tok.openL k2 :: toksL pj))
            ++ ((toks (.item ik2 pc2) ++ Tok.closeL k2
                :: Tok.openL r.k :: toksL r.ranged)
              ++ (toksL r.post ++ Tok.closeL r.k :: ctxSuf r.ctx)) := by
        rw [hplug, toksL_plugB, ctxPre_decomp, hsb]
        simp [toks, ItemRange.items, hpre0, toksL_append, toksL,
          List.append_assoc]
      have htake : (toksL tr.doc).take
            ((ctxParentPre r.ctx).length + sizeL sb0 + 1 + sizeL pj)
          = ctxParentPre r.ctx ++ (toksL sb0 ++ Tok.openL k2 :: toksL pj) := by
        rw [hT]
        exact take_at _ _ _ (by simp [toksL_len]; omega)
      have hdropRE : (toksL tr.doc).drop r.rangeEnd
          = toksL r.post ++ Tok.closeL r.k :: ctxSuf r.ctx := by
        rw [hT]
        rw [show (ctxParentPre r.ctx ++ (toksL sb0 ++ Tok.openL k2 :: toksL pj))
              ++ ((toks (.item ik2 pc2) ++ Tok.closeL k2
                  :: Tok.openL r.k :: toksL r.ranged)
                ++ (toksL r.post ++ Tok.closeL r.k :: ctxSuf r.ctx))
            = ((ctxParentPre r.ctx ++ (toksL sb0 ++ Tok.openL k2 :: toksL pj))
              ++ (toks (.item ik2 pc2) ++ Tok.closeL k2
                  :: Tok.openL r.k :: toksL r.ranged))
              ++ (toksL r.post ++ Tok.closeL r.k :: ctxSuf r.ctx)
          from by simp [List.append_assoc]]
        exact drop_at _ _ _
          (by
            have hpre2 : (ctxPre r.ctx).length
                = (ctxParentPre r.ctx).length + sizeL sb0
                  + (sizeL pj + (sizeL pc2 + 2) + 2) := by
              rw [ctxPre_decomp, hsb]
              simp [toksL_len, toksL_append, sizeL_append, sizeL, size]
              omega
            simp only [List.length_append, List.length_cons, toksL_len,
              toks_len, ItemRange.rangeEnd, ItemRange.start,
              ItemRange.listStart, hpre0, sizeL, size]
            omega)
      have hdropQ : (toksL tr.doc).drop (r.rangeEnd + 1)
          = (toksL r.post ++ Tok.closeL r.k :: ctxSuf r.ctx).drop 1 := by
        rw [drop_succ, hdropRE]
      refine ⟨_, (toks (.item ik2 pc2) ++ Tok.closeL k2
            :: Tok.openL r.k :: toksL r.ranged)
          ++ (toksL r.post ++ Tok.closeL r.k :: ctxSuf r.ctx).take 1,
        toks (.item ik2 (pc2 ++ PMNode.list r.k selCont :: unsel))
          ++ Tok.closeL k2
          :: (if r.post.isEmpty then ([] : List Tok)
              else Tok.openL r.k
                :: (toksL r.post ++ Tok.closeL r.k :: ctxSuf r.ctx).take 1),
        hB, ?_, ?_⟩
      · rw [htake, hdropQ, hT]
        simp [List.append_assoc, List.take_append_drop, take_one_tail]
      · rw [htake, hdropQ]
        dsimp only
        by_cases hpe : r.post.isEmpty = true
        · have hpnil : r.post = [] := by
            cases hp : r.post with
            | nil => rfl
            | cons a l => rw [hp] at hpe; simp at hpe
          rw [rebuildB]
          simp only [hpe, if_true]
          rw [toksL_plug0, ctxPre_withNewPrevSib, ctxSuf_withNewPrevSib, hsb]
          simp [hpnil, toks, toksL_append, toksL, List.append_assoc,
            List.dropLast_concat]
        · have hpe2 : r.post.isEmpty = false := by
            cases h2 : r.post.isEmpty with
            | false => rfl
            | true => exact absurd h2 hpe
          rw [rebuildB]
          simp only [hpe2, Bool.false_eq_true, if_false]
          rw [toksL_plugB, ctxPre_withNewPrevSib, ctxSuf_withNewPrevSib, hsb]
          simp [hpe2, toks, toksL_append, toksL, List.append_assoc,
            List.take_append_drop, take_one_tail, List.dropLast_concat]

theorem indent_frame_witness :
    (findPreviousItem
        (.list .bullet [.item .plain [.para "item 1".toList],
          .item .plain [.para "item 2".toList],
          .item .plain [.para "item 3".toList]])
        ⟨.top [] [], .bullet, [.item .plain [.para "item 1".toList]],
          [.item .plain [.para "item 2".toList]],
          [.item .plain [.para "item 3".toList]]⟩ =
       some ⟨.item .plain [.para "item 1".toList],
         .list .bullet [.item .plain [.para "item 1".toList],
           .item .plain [.para "item 2".toList],
           .item .plain [.para "item 3".toList]], 2, 1, true⟩ ∧
     ∃ tr2 mid mid2,
       indentList (tr3 .bullet .plain) = (tr2, .ret true) ∧
       toksL (doc3 .bullet .plain) =
         (toksL (doc3 .bullet .plain)).take 1 ++ mid ++
           (toksL (doc3 .bullet .plain)).drop 22 ∧
       toksL tr2.doc =
         (toksL (doc3 .bullet .plain)).take 1 ++ mid2 ++
           (toksL (doc3 .bullet .plain)).drop 22) ∧
    (findPreviousItem
        (.list .task [.item (.taskItem false) [.para ['b']]])
        ⟨.top [.list .bullet [.item .plain [.para ['a']]]] [], .task, [],
          [.item (.taskItem false) [.para ['b']]], []⟩ =
       some ⟨.item .plain [.para ['a']],
         .list .bullet [.item .plain [.para ['a']]], 2, 1, false⟩ ∧
     ∃ tr2 mid mid2,
       indentList ⟨docX, 10, 10, []⟩ = (tr2, .ret true) ∧
       toksL docX =
         (toksL docX).take 1 ++ mid ++ (toksL docX).drop 14 ∧
       toksL tr2.doc =
         (toksL docX).take 1 ++ mid2 ++ (toksL docX).drop 14) :=
  ⟨(indent_frame (tr3 .bullet .plain)
      ⟨.top [] [], .bullet, [.item .plain [.para "item 1".toList]],
        [.item .plain [.para "item 2".toList]],
        [.item .plain [.para "item 3".toList]]⟩).1
     [] [.para "item 1".toList] .plain
     (validDoc_doc3 .bullet .plain rfl) (calc_doc3 .bullet .plain) rfl,
   (indent_frame ⟨docX, 10, 10, []⟩
      ⟨.top [.list .bullet [.item .plain [.para ['a']]]] [], .task, [],
        [.item (.taskItem false) [.para ['b']]], []⟩).2
     [] [] [.para ['a']] [.item (.taskItem false) [.para ['b']]] []
     .bullet .plain (by decide) calc_docX rfl rfl (by decide) rfl⟩

end ListIndent










